import Mathlib

/-!
Verification of the parameter templating engine of `hoard`
(`src/core/parameters.rs`, `src/gui/parameter_input/controls.rs`,
`src/gui/parameter_input/render.rs`).

Command texts are modelled as `List Char` (Rust `String` / `&str`); the
byte-level behaviour (UTF-8) is modelled separately as `List Nat` for the
safety claim about character boundaries.

The Rust scans advance by byte indices but only ever move by whole
characters or whole tokens, so the `List Char` functions below mirror the
source loops one branch at a time.  Where the Rust source would loop
forever on an empty `start_token` (`starts_with("")` is always true and
the index advances by zero), the Lean function takes the hypothesis that
the token is non-empty; the spec rejects an empty start token at session
start, and every claim assumes a non-empty start token.
-/

namespace Hoard

/-- `get_parameter_count` from `src/core/parameters.rs` (lines 192-221):
counts unescaped occurrences of `token`.  On a backslash the scan skips
the escaped unit (the token if it matches, otherwise one character)
without counting. -/
def get_parameter_count (token : List Char) (htok : token ≠ []) :
    List Char → Nat
  | [] => 0
  | c :: rest =>
    if c = '\\' then
      match rest with
      | [] => 0
      | d :: rest2 =>
        if token.isPrefixOf (d :: rest2) then
          get_parameter_count token htok ((d :: rest2).drop token.length)
        else
          get_parameter_count token htok rest2
    else if token.isPrefixOf (c :: rest) then
      1 + get_parameter_count token htok ((c :: rest).drop token.length)
    else
      get_parameter_count token htok rest
termination_by s => s.length
decreasing_by
  all_goals
    (have hp : 0 < token.length := List.length_pos.mpr htok;
     simp [List.length_drop]; try omega)

/-- `escape_input` from `src/core/parameters.rs` (lines 124-155): prefixes
every literal backslash, every occurrence of `start_token`, and (if
non-empty) every occurrence of `end_token` with one backslash. -/
def escape_input (st et : List Char) (hst : st ≠ []) : List Char → List Char
  | [] => []
  | c :: rest =>
    if c = '\\' then
      '\\' :: '\\' :: escape_input st et hst rest
    else if st.isPrefixOf (c :: rest) then
      '\\' :: (st ++ escape_input st et hst ((c :: rest).drop st.length))
    else if et ≠ [] ∧ et.isPrefixOf (c :: rest) then
      '\\' :: (et ++ escape_input st et hst ((c :: rest).drop et.length))
    else
      c :: escape_input st et hst rest
termination_by s => s.length
decreasing_by
  · simp
  · have hp : 0 < st.length := List.length_pos.mpr hst
    simp [List.length_drop]; omega
  · rename_i h2
    have hp : 0 < et.length := List.length_pos.mpr h2.1
    simp [List.length_drop]; omega
  · simp

/-- `cleanup_escapes` from `src/core/parameters.rs` (lines 157-190): strips
the escape markers.  On a backslash, if the following text is
`start_token`, `end_token` (non-empty) or a second backslash, that unit is
emitted without the leading backslash; otherwise only the following
character is emitted (the backslash is dropped), and a backslash at the
very end of the buffer is dropped (the `if i < s.len()` guard fails and
nothing is pushed).  For an empty `start_token` the Rust loop would not
terminate (`starts_with("")` always holds and the index does not
advance); here that unreachable case simply consumes the empty token. -/
def cleanup_escapes (st et : List Char) : List Char → List Char
  | [] => []
  | c :: rest =>
    if c = '\\' then
      match rest with
      | [] => []
      | d :: rest2 =>
        if st.isPrefixOf (d :: rest2) then
          st ++ cleanup_escapes st et ((d :: rest2).drop st.length)
        else if et.isPrefixOf (d :: rest2) ∧ et ≠ [] then
          et ++ cleanup_escapes st et ((d :: rest2).drop et.length)
        else if d = '\\' then
          '\\' :: cleanup_escapes st et rest2
        else
          d :: cleanup_escapes st et rest2
    else
      c :: cleanup_escapes st et rest
termination_by s => s.length
decreasing_by
  all_goals (simp [List.length_drop]; try omega)

/-- `split` from `src/core/parameters.rs` (lines 223-225), i.e. Rust
`str::split`: escape-unaware split at every non-overlapping occurrence of
`token`, keeping empty pieces. -/
def split (token : List Char) (htok : token ≠ []) : List Char → List (List Char)
  | [] => [[]]
  | c :: rest =>
    if token.isPrefixOf (c :: rest) then
      [] :: split token htok ((c :: rest).drop token.length)
    else
      (split token htok rest).modifyHead (c :: ·)
termination_by s => s.length
decreasing_by
  · have hp : 0 < token.length := List.length_pos.mpr htok
    simp [List.length_drop]; omega
  · simp

/-- The loop body of `split_inclusive_token` from `src/core/parameters.rs`
(lines 227-240): empty pieces are dropped, and after every piece except
the last the token itself is inserted as its own element. -/
def interleave_token (token : List Char) : List (List Char) → List (List Char)
  | [] => []
  | [s] => if s = [] then [] else [s]
  | s :: s2 :: rest =>
    (if s = [] then [token] else [s, token]) ++ interleave_token token (s2 :: rest)

/-- `split_inclusive_token` from `src/core/parameters.rs` (lines 227-240). -/
def split_inclusive_token (token : List Char) (htok : token ≠ [])
    (s : List Char) : List (List Char) :=
  interleave_token token (split token htok s)

/-- The inner search loop of `replace_parameter`
(`src/core/parameters.rs` lines 271-295): starting after the matched
`start_token`, skip a backslash together with one following character;
stop with success at an occurrence of a non-empty `end_token` (returning
the remainder after the `end_token`); stop with failure at an occurrence
of `start_token` or at the end of the buffer. -/
def find_end (st et : List Char) : List Char → Option Nat
  | [] => none
  | c :: rest =>
    if c = '\\' then
      match rest with
      | [] => none
      | _ :: rest2 => (find_end st et rest2).map (fun p => p + 2)
    else if et ≠ [] ∧ et.isPrefixOf (c :: rest) then
      some 0
    else if st.isPrefixOf (c :: rest) then
      none
    else
      (find_end st et rest).map (fun p => p + 1)

/-- The outer loop of `replace_parameter` from `src/core/parameters.rs`
(lines 242-316), with the `replaced` flag made explicit.  On a backslash
the escaped unit (`start_token`, non-empty `end_token`, or one character)
is copied together with its backslash; at the first unescaped
`start_token` while `replaced` is still `false`, the inner search
`find_end` decides how much is consumed and `value` is emitted. -/
def replace_aux (st et v : List Char) (hst : st ≠ []) :
    Bool → List Char → List Char
  | _, [] => []
  | replaced, c :: rest =>
    if c = '\\' then
      match rest with
      | [] => ['\\']
      | d :: rest2 =>
        if st.isPrefixOf (d :: rest2) then
          '\\' :: (st ++ replace_aux st et v hst replaced
            ((d :: rest2).drop st.length))
        else if et.isPrefixOf (d :: rest2) ∧ et ≠ [] then
          '\\' :: (et ++ replace_aux st et v hst replaced
            ((d :: rest2).drop et.length))
        else
          '\\' :: d :: replace_aux st et v hst replaced rest2
    else if replaced = false ∧ st.isPrefixOf (c :: rest) then
      match find_end st et ((c :: rest).drop st.length) with
      | some p =>
        v ++ replace_aux st et v hst true
          (((c :: rest).drop st.length).drop (p + et.length))
      | none => v ++ replace_aux st et v hst true ((c :: rest).drop st.length)
    else
      c :: replace_aux st et v hst replaced rest
termination_by _ s => s.length
decreasing_by
  all_goals
    first
      | omega
      | (simp [List.length_drop]; omega)
      | (have hp : 0 < st.length := List.length_pos.mpr hst
         simp [List.length_drop]; try omega)

/-- `replace_parameter` from `src/core/parameters.rs` (lines 242-316). -/
def replace_parameter (st et v : List Char) (hst : st ≠ [])
    (s : List Char) : List Char :=
  replace_aux st et v hst false s

/-- Specification-side scanner (spec ยง3 "Escape Marker" / ยง4.3 step 1):
splits a template at the first unescaped occurrence of `start_token`.
The buffer is read left to right in escape units: a backslash followed by
`start_token`, by a non-empty `end_token`, or by one other character is an
escaped unit; at any other position an occurrence of `start_token` starts
the parameter.  Returns `some (pre, suf)` where `pre` is the verbatim text
before the occurrence and `suf` begins with the occurrence, or `none` when
no unescaped occurrence exists. -/
def spec_first_unescaped (st et : List Char) :
    List Char → Option (List Char × List Char)
  | [] => none
  | c :: rest =>
    if c = '\\' then
      match rest with
      | [] => none
      | d :: rest2 =>
        if st.isPrefixOf (d :: rest2) then
          (spec_first_unescaped st et ((d :: rest2).drop st.length)).map
            (fun p => ('\\' :: ((d :: rest2).take st.length ++ p.1), p.2))
        else if et.isPrefixOf (d :: rest2) ∧ et ≠ [] then
          (spec_first_unescaped st et ((d :: rest2).drop et.length)).map
            (fun p => ('\\' :: ((d :: rest2).take et.length ++ p.1), p.2))
        else
          (spec_first_unescaped st et rest2).map
            (fun p => ('\\' :: d :: p.1, p.2))
    else if st.isPrefixOf (c :: rest) then
      some ([], c :: rest)
    else
      (spec_first_unescaped st et rest).map (fun p => (c :: p.1, p.2))
termination_by s => s.length
decreasing_by
  all_goals (simp [List.length_drop]; try omega)

/-- Specification-side count (spec ยง8, first bullet): the number of
non-overlapping literal occurrences of `K`, counted left to right. -/
def count_occurrences (K : List Char) (hK : K ≠ []) : List Char → Nat
  | [] => 0
  | c :: rest =>
    if K.isPrefixOf (c :: rest) then
      1 + count_occurrences K hK ((c :: rest).drop K.length)
    else
      count_occurrences K hK rest
termination_by s => s.length
decreasing_by
  all_goals
    (have hp : 0 < K.length := List.length_pos.mpr hK;
     simp [List.length_drop]; try omega)

/-- Rust `str::replace` with a string pattern, as used by the submit
handler in `src/gui/parameter_input/controls.rs` (lines 17-19): every
non-overlapping occurrence of `pat`, found left to right, is replaced by
`rep`. -/
def replace_all (pat rep : List Char) (hpat : pat ≠ []) :
    List Char → List Char
  | [] => []
  | c :: rest =>
    if pat.isPrefixOf (c :: rest) then
      rep ++ replace_all pat rep hpat ((c :: rest).drop pat.length)
    else
      c :: replace_all pat rep hpat rest
termination_by s => s.length
decreasing_by
  all_goals
    (have hp : 0 < pat.length := List.length_pos.mpr hpat;
     simp [List.length_drop]; try omega)

/-- Rust `str::replace` with a `char` pattern, as used to restore the
placeholders in `src/gui/parameter_input/controls.rs` (lines 35-37). -/
def replace_char (p : Char) (rep : List Char) : List Char → List Char
  | [] => []
  | c :: rest =>
    (if c = p then rep else [c]) ++ replace_char p rep rest

/-- The private-use placeholder standing for `start_token`
(`'\u{E000}'` in `src/gui/parameter_input/controls.rs`). -/
def placeholder_start : Char := '\uE000'

/-- The private-use placeholder standing for `end_token`
(`'\u{E001}'` in `src/gui/parameter_input/controls.rs`). -/
def placeholder_end : Char := '\uE001'

/-- The guard step of the submit handler
(`src/gui/parameter_input/controls.rs` lines 16-20): every literal
occurrence of `start_token` in the raw value is replaced by U+E000 and,
when `end_token` is non-empty, every literal occurrence of `end_token` by
U+E001. -/
def guard_value (st et : List Char) (hst : st ≠ []) (input : List Char) :
    List Char :=
  let safe := replace_all st [placeholder_start] hst input
  if het : et ≠ [] then replace_all et [placeholder_end] het safe else safe

/-- The restore step of the submit handler
(`src/gui/parameter_input/controls.rs` lines 34-39): U+E000 is replaced
back by the literal `start_token` and, when `end_token` is non-empty,
U+E001 by the literal `end_token`. -/
def restore_value (st et : List Char) (s : List Char) : List Char :=
  let restored := replace_char placeholder_start st s
  if et ≠ [] then replace_char placeholder_end et restored else restored

/-- The submit (`Key::Char('\n')`) branch of `key_handler` from
`src/gui/parameter_input/controls.rs` (lines 13-47): guard the raw value,
replace the first occurrence, and if no unescaped `start_token` remains,
clean up the escapes and restore the placeholders, yielding the final
command.  Returns `(final?, replaced)` where `final?` is the resolved
command when the session finishes this round and `replaced` is the
template after this round's replacement. -/
def key_submit (st et : List Char) (hst : st ≠ []) (input cmd : List Char) :
    Option (List Char) × List Char :=
  let safe := guard_value st et hst input
  let replaced := replace_parameter st et safe hst cmd
  if get_parameter_count st hst replaced = 0 then
    (some (restore_value st et (cleanup_escapes st et replaced)), replaced)
  else
    (none, replaced)

/-- The occurrence scan of the highlight renderer
(`src/gui/parameter_input/render.rs` lines 71-94): finds the character
position of the first unescaped occurrence of `token`.  Unlike the
replace scan, this scan knows nothing about the ending token: after a
backslash it skips the token if it matches, otherwise one character. -/
def render_find (token : List Char) : List Char → Option Nat
  | [] => none
  | c :: rest =>
    if c = '\\' then
      match rest with
      | [] => none
      | d :: rest2 =>
        if token.isPrefixOf (d :: rest2) then
          (render_find token ((d :: rest2).drop token.length)).map
            (fun p => p + (1 + token.length))
        else
          (render_find token rest2).map (fun p => p + 2)
    else if token.isPrefixOf (c :: rest) then
      some 0
    else
      (render_find token rest).map (fun p => p + 1)
termination_by s => s.length
decreasing_by
  all_goals (simp [List.length_drop]; try omega)

/-- The end-of-occurrence search of the highlight renderer
(`src/gui/parameter_input/render.rs` lines 101-126), called only with a
non-empty ending token: skip a backslash together with one character;
break without success at an occurrence of `token`; succeed at an
occurrence of `ending` (returning the offset one past it); break without
success at a space.  Note the order: `token` before `ending` before the
space test. -/
def render_end_search (token ending : List Char) : List Char → Option Nat
  | [] => none
  | c :: rest =>
    if c = '\\' then
      match rest with
      | [] => none
      | _ :: rest2 => (render_end_search token ending rest2).map (fun p => p + 2)
    else if token.isPrefixOf (c :: rest) then
      none
    else if ending.isPrefixOf (c :: rest) then
      some ending.length
    else if c = ' ' then
      none
    else
      (render_end_search token ending rest).map (fun p => p + 1)

/-- The highlighted span computed by `draw` in
`src/gui/parameter_input/render.rs` (lines 96-141): the character position
of the first unescaped occurrence of `token` together with the length of
the highlighted region (`full_param_len`). -/
def render_span (token ending : List Char) (s : List Char) :
    Option (Nat × Nat) :=
  match render_find token s with
  | none => none
  | some pos =>
    let len :=
      if ending ≠ [] then
        match render_end_search token ending (s.drop (pos + token.length)) with
        | some off => token.length + off
        | none => token.length
      else token.length
    some (pos, len)

/-- The remainder of the occurrence suffix after `replace_parameter`
consumes the first unescaped occurrence: everything after the closing
`end_token` when the inner search succeeds, otherwise everything after
the `start_token` itself (`src/core/parameters.rs` lines 297-307). -/
def consume_tail (st et : List Char) (suf : List Char) : List Char :=
  match find_end st et (suf.drop st.length) with
  | some p => (suf.drop st.length).drop (p + et.length)
  | none => suf.drop st.length

/-! ### Byte-level model (UTF-8)

Rust strings are UTF-8 byte buffers and the scans above really move a
byte index (`i += c.len_utf8()`, `i += token.len()`, slices `s[i..]`).
To check that no scan ever splits a multi-byte character, the four
engine operations are repeated below on byte lists (`List Nat`), exactly
as the source reads them: the backslash test is a byte comparison with
`0x5C`, `starts_with` compares byte sequences, and the per-character
advance takes `len_utf8` of the byte at the cursor.  The correspondence
theorems at the end equate them with the character-level functions on
every encoded input. -/

/-- UTF-8 encoding of one character (divisions written for bit shifts). -/
def utf8EncodeChar (c : Char) : List Nat :=
  let n := c.toNat
  if n < 0x80 then [n]
  else if n < 0x800 then [0xC0 + n / 64, 0x80 + n % 64]
  else if n < 0x10000 then
    [0xE0 + n / 4096, 0x80 + n / 64 % 64, 0x80 + n % 64]
  else
    [0xF0 + n / 262144, 0x80 + n / 4096 % 64, 0x80 + n / 64 % 64,
      0x80 + n % 64]

/-- UTF-8 encoding of a text. -/
def utf8Encode (s : List Char) : List Nat := (s.map utf8EncodeChar).flatten

/-- `len_utf8` of the character whose encoding starts with byte `b`. -/
def utf8Len (b : Nat) : Nat :=
  if b < 0x80 then 1 else if b < 0xE0 then 2 else if b < 0xF0 then 3 else 4

/-- `get_parameter_count` read at the byte level. -/
def gpc_bytes (token : List Nat) (htok : token ≠ []) : List Nat → Nat
  | [] => 0
  | b :: rest =>
    if b = 0x5C then
      match rest with
      | [] => 0
      | d :: rest2 =>
        if token.isPrefixOf (d :: rest2) then
          gpc_bytes token htok ((d :: rest2).drop token.length)
        else
          gpc_bytes token htok ((d :: rest2).drop (utf8Len d))
    else if token.isPrefixOf (b :: rest) then
      1 + gpc_bytes token htok ((b :: rest).drop token.length)
    else
      gpc_bytes token htok ((b :: rest).drop (utf8Len b))
termination_by s => s.length
decreasing_by
  all_goals
    first
      | (simp [List.length_drop] <;> omega)
      | (simp [List.length_drop, utf8Len] <;> (split_ifs <;> omega))
      | (have hp : 0 < st.length := List.length_pos.mpr hst
         simp [List.length_drop] <;> omega)
      | (have hp : 0 < token.length := List.length_pos.mpr htok
         simp [List.length_drop] <;> omega)
      | (rename_i hcond
         have hp : 0 < et.length := List.length_pos.mpr hcond.1
         simp [List.length_drop] <;> omega)

/-- `escape_input` read at the byte level. -/
def escape_bytes (st et : List Nat) (hst : st ≠ []) : List Nat → List Nat
  | [] => []
  | b :: rest =>
    if b = 0x5C then
      0x5C :: 0x5C :: escape_bytes st et hst rest
    else if st.isPrefixOf (b :: rest) then
      0x5C :: (st ++ escape_bytes st et hst ((b :: rest).drop st.length))
    else if et ≠ [] ∧ et.isPrefixOf (b :: rest) then
      0x5C :: (et ++ escape_bytes st et hst ((b :: rest).drop et.length))
    else
      (b :: rest).take (utf8Len b)
        ++ escape_bytes st et hst ((b :: rest).drop (utf8Len b))
termination_by s => s.length
decreasing_by
  all_goals
    first
      | (simp [List.length_drop] <;> omega)
      | (simp [List.length_drop, utf8Len] <;> (split_ifs <;> omega))
      | (have hp : 0 < st.length := List.length_pos.mpr hst
         simp [List.length_drop] <;> omega)
      | (have hp : 0 < token.length := List.length_pos.mpr htok
         simp [List.length_drop] <;> omega)
      | (rename_i hcond
         have hp : 0 < et.length := List.length_pos.mpr hcond.1
         simp [List.length_drop] <;> omega)

/-- `cleanup_escapes` read at the byte level. -/
def cleanup_bytes (st et : List Nat) : List Nat → List Nat
  | [] => []
  | b :: rest =>
    if b = 0x5C then
      match rest with
      | [] => []
      | d :: rest2 =>
        if st.isPrefixOf (d :: rest2) then
          st ++ cleanup_bytes st et ((d :: rest2).drop st.length)
        else if et.isPrefixOf (d :: rest2) ∧ et ≠ [] then
          et ++ cleanup_bytes st et ((d :: rest2).drop et.length)
        else if d = 0x5C then
          0x5C :: cleanup_bytes st et rest2
        else
          (d :: rest2).take (utf8Len d)
            ++ cleanup_bytes st et ((d :: rest2).drop (utf8Len d))
    else
      (b :: rest).take (utf8Len b)
        ++ cleanup_bytes st et ((b :: rest).drop (utf8Len b))
termination_by s => s.length
decreasing_by
  all_goals
    first
      | (simp [List.length_drop] <;> omega)
      | (simp [List.length_drop, utf8Len] <;> (split_ifs <;> omega))
      | (have hp : 0 < st.length := List.length_pos.mpr hst
         simp [List.length_drop] <;> omega)
      | (have hp : 0 < token.length := List.length_pos.mpr htok
         simp [List.length_drop] <;> omega)
      | (rename_i hcond
         have hp : 0 < et.length := List.length_pos.mpr hcond.1
         simp [List.length_drop] <;> omega)

/-- The inner end search of `replace_parameter` read at the byte level;
offsets are byte offsets. -/
def find_end_bytes (st et : List Nat) : List Nat → Option Nat
  | [] => none
  | b :: rest =>
    if b = 0x5C then
      match rest with
      | [] => none
      | d :: rest2 =>
        (find_end_bytes st et ((d :: rest2).drop (utf8Len d))).map
          (fun p => p + (1 + utf8Len d))
    else if et ≠ [] ∧ et.isPrefixOf (b :: rest) then
      some 0
    else if st.isPrefixOf (b :: rest) then
      none
    else
      (find_end_bytes st et ((b :: rest).drop (utf8Len b))).map
        (fun p => p + utf8Len b)
termination_by s => s.length
decreasing_by
  all_goals
    first
      | (simp [List.length_drop] <;> omega)
      | (simp [List.length_drop, utf8Len] <;> (split_ifs <;> omega))
      | (have hp : 0 < st.length := List.length_pos.mpr hst
         simp [List.length_drop] <;> omega)
      | (have hp : 0 < token.length := List.length_pos.mpr htok
         simp [List.length_drop] <;> omega)
      | (rename_i hcond
         have hp : 0 < et.length := List.length_pos.mpr hcond.1
         simp [List.length_drop] <;> omega)

/-- The outer loop of `replace_parameter` read at the byte level. -/
def replace_aux_bytes (st et v : List Nat) (hst : st ≠ []) :
    Bool → List Nat → List Nat
  | _, [] => []
  | replaced, b :: rest =>
    if b = 0x5C then
      match rest with
      | [] => [0x5C]
      | d :: rest2 =>
        if st.isPrefixOf (d :: rest2) then
          0x5C :: (st ++ replace_aux_bytes st et v hst replaced
            ((d :: rest2).drop st.length))
        else if et.isPrefixOf (d :: rest2) ∧ et ≠ [] then
          0x5C :: (et ++ replace_aux_bytes st et v hst replaced
            ((d :: rest2).drop et.length))
        else
          0x5C :: ((d :: rest2).take (utf8Len d)
            ++ replace_aux_bytes st et v hst replaced
              ((d :: rest2).drop (utf8Len d)))
    else if replaced = false ∧ st.isPrefixOf (b :: rest) then
      match find_end_bytes st et ((b :: rest).drop st.length) with
      | some p =>
        v ++ replace_aux_bytes st et v hst true
          (((b :: rest).drop st.length).drop (p + et.length))
      | none =>
        v ++ replace_aux_bytes st et v hst true ((b :: rest).drop st.length)
    else
      (b :: rest).take (utf8Len b)
        ++ replace_aux_bytes st et v hst replaced ((b :: rest).drop (utf8Len b))
termination_by _ s => s.length
decreasing_by
  all_goals
    first
      | (simp [List.length_drop] <;> omega)
      | (simp [List.length_drop, utf8Len] <;> (split_ifs <;> omega))
      | (have hp : 0 < st.length := List.length_pos.mpr hst
         simp [List.length_drop] <;> omega)
      | (have hp : 0 < token.length := List.length_pos.mpr htok
         simp [List.length_drop] <;> omega)
      | (rename_i hcond
         have hp : 0 < et.length := List.length_pos.mpr hcond.1
         simp [List.length_drop] <;> omega)

/-- `replace_parameter` read at the byte level. -/
def replace_bytes (st et v : List Nat) (hst : st ≠ [])
    (s : List Nat) : List Nat :=
  replace_aux_bytes st et v hst false s

/-! ### Case equations

One rewriting lemma per branch of each scan, mirroring the `while` loop
bodies of the source.  All are proved by unfolding one step of the
definition. -/

theorem utf8Len_pos (b : Nat) : 0 < utf8Len b := by
  unfold utf8Len
  split
  · omega
  · split
    · omega
    · split <;> omega

theorem isPrefixOf_eq_true_iff {α : Type} [BEq α] [LawfulBEq α]
    (l1 l2 : List α) : l1.isPrefixOf l2 = true ↔ l1 <+: l2 :=
  List.isPrefixOf_iff_prefix

theorem find_end_nil (st et : List Char) : find_end st et [] = none := by
  rw [find_end.eq_def]

theorem find_end_bs_nil (st et : List Char) : find_end st et ['\\'] = none := by
  rw [find_end.eq_def]; simp

theorem find_end_bs (st et : List Char) (d : Char) (rest2 : List Char) :
    find_end st et ('\\' :: d :: rest2) =
      (find_end st et rest2).map (fun p => p + 2) := by
  rw [find_end.eq_def]; simp

theorem find_end_et (st et : List Char) (c : Char) (rest : List Char)
    (hbs : c ≠ '\\') (h : et ≠ [] ∧ et.isPrefixOf (c :: rest)) :
    find_end st et (c :: rest) = some 0 := by
  rw [find_end.eq_def]; simp [hbs, h.1, h.2]

theorem find_end_tok (st et : List Char) (c : Char) (rest : List Char)
    (hbs : c ≠ '\\') (hnet : ¬(et ≠ [] ∧ et.isPrefixOf (c :: rest)))
    (h : st.isPrefixOf (c :: rest)) :
    find_end st et (c :: rest) = none := by
  rw [find_end.eq_def]; simp [hbs, h]
  intro h1 h2
  exact absurd ⟨h1, (isPrefixOf_eq_true_iff _ _).mpr h2⟩ hnet

theorem find_end_ch (st et : List Char) (c : Char) (rest : List Char)
    (hbs : c ≠ '\\') (hnet : ¬(et ≠ [] ∧ et.isPrefixOf (c :: rest)))
    (hnst : ¬st.isPrefixOf (c :: rest)) :
    find_end st et (c :: rest) =
      (find_end st et rest).map (fun p => p + 1) := by
  rw [find_end.eq_def]; simp [hbs, hnst]
  intro h1 h2
  exact absurd ⟨h1, (isPrefixOf_eq_true_iff _ _).mpr h2⟩ hnet

theorem gpc_nil (token : List Char) (htok : token ≠ []) :
    get_parameter_count token htok [] = 0 := by
  rw [get_parameter_count.eq_def]

theorem gpc_bs_nil (token : List Char) (htok : token ≠ []) :
    get_parameter_count token htok ['\\'] = 0 := by
  rw [get_parameter_count.eq_def]; simp

theorem gpc_bs_tok (token : List Char) (htok : token ≠ []) (d : Char)
    (rest2 : List Char) (h : token.isPrefixOf (d :: rest2)) :
    get_parameter_count token htok ('\\' :: d :: rest2) =
      get_parameter_count token htok ((d :: rest2).drop token.length) := by
  rw [get_parameter_count.eq_def]; simp [h]

theorem gpc_bs_ch (token : List Char) (htok : token ≠ []) (d : Char)
    (rest2 : List Char) (h : ¬token.isPrefixOf (d :: rest2)) :
    get_parameter_count token htok ('\\' :: d :: rest2) =
      get_parameter_count token htok rest2 := by
  rw [get_parameter_count.eq_def]; simp [h]

theorem gpc_tok (token : List Char) (htok : token ≠ []) (c : Char)
    (rest : List Char) (hbs : c ≠ '\\') (h : token.isPrefixOf (c :: rest)) :
    get_parameter_count token htok (c :: rest) =
      1 + get_parameter_count token htok ((c :: rest).drop token.length) := by
  rw [get_parameter_count.eq_def]; simp [hbs, h]

theorem gpc_ch (token : List Char) (htok : token ≠ []) (c : Char)
    (rest : List Char) (hbs : c ≠ '\\') (h : ¬token.isPrefixOf (c :: rest)) :
    get_parameter_count token htok (c :: rest) =
      get_parameter_count token htok rest := by
  rw [get_parameter_count.eq_def]; simp [hbs, h]

theorem escape_nil (st et : List Char) (hst : st ≠ []) :
    escape_input st et hst [] = [] := by
  rw [escape_input.eq_def]

theorem escape_bs (st et : List Char) (hst : st ≠ []) (rest : List Char) :
    escape_input st et hst ('\\' :: rest) =
      '\\' :: '\\' :: escape_input st et hst rest := by
  rw [escape_input.eq_def]; simp

theorem escape_tok (st et : List Char) (hst : st ≠ []) (c : Char)
    (rest : List Char) (hbs : c ≠ '\\') (h : st.isPrefixOf (c :: rest)) :
    escape_input st et hst (c :: rest) =
      '\\' :: (st ++ escape_input st et hst ((c :: rest).drop st.length)) := by
  rw [escape_input.eq_def]; simp [hbs, h]

theorem escape_et (st et : List Char) (hst : st ≠ []) (c : Char)
    (rest : List Char) (hbs : c ≠ '\\') (hnst : ¬st.isPrefixOf (c :: rest))
    (h : et ≠ [] ∧ et.isPrefixOf (c :: rest)) :
    escape_input st et hst (c :: rest) =
      '\\' :: (et ++ escape_input st et hst ((c :: rest).drop et.length)) := by
  rw [escape_input.eq_def]; simp [hbs, hnst, h.1, h.2]

theorem escape_ch (st et : List Char) (hst : st ≠ []) (c : Char)
    (rest : List Char) (hbs : c ≠ '\\') (hnst : ¬st.isPrefixOf (c :: rest))
    (hnet : ¬(et ≠ [] ∧ et.isPrefixOf (c :: rest))) :
    escape_input st et hst (c :: rest) = c :: escape_input st et hst rest := by
  rw [escape_input.eq_def]; simp [hbs, hnst]
  intro h1 h2
  exact absurd ⟨h1, (isPrefixOf_eq_true_iff _ _).mpr h2⟩ hnet

theorem cleanup_nil (st et : List Char) : cleanup_escapes st et [] = [] := by
  rw [cleanup_escapes.eq_def]

theorem cleanup_bs_nil (st et : List Char) :
    cleanup_escapes st et ['\\'] = [] := by
  rw [cleanup_escapes.eq_def]; simp

theorem cleanup_bs_tok (st et : List Char) (d : Char) (rest2 : List Char)
    (h : st.isPrefixOf (d :: rest2)) :
    cleanup_escapes st et ('\\' :: d :: rest2) =
      st ++ cleanup_escapes st et ((d :: rest2).drop st.length) := by
  rw [cleanup_escapes.eq_def]; simp [h]

theorem cleanup_bs_et (st et : List Char) (d : Char) (rest2 : List Char)
    (hnst : ¬st.isPrefixOf (d :: rest2))
    (h : et.isPrefixOf (d :: rest2) ∧ et ≠ []) :
    cleanup_escapes st et ('\\' :: d :: rest2) =
      et ++ cleanup_escapes st et ((d :: rest2).drop et.length) := by
  rw [cleanup_escapes.eq_def]; simp [hnst, h.1, h.2]

theorem cleanup_bs_bs (st et : List Char) (rest2 : List Char)
    (hnst : ¬st.isPrefixOf ('\\' :: rest2))
    (hnet : ¬(et.isPrefixOf ('\\' :: rest2) ∧ et ≠ [])) :
    cleanup_escapes st et ('\\' :: '\\' :: rest2) =
      '\\' :: cleanup_escapes st et rest2 := by
  rw [cleanup_escapes.eq_def]; simp [hnst]
  intro h1 h2
  exact absurd ⟨(isPrefixOf_eq_true_iff _ _).mpr h1, h2⟩ hnet

theorem cleanup_bs_ch (st et : List Char) (d : Char) (rest2 : List Char)
    (hnst : ¬st.isPrefixOf (d :: rest2))
    (hnet : ¬(et.isPrefixOf (d :: rest2) ∧ et ≠ [])) (hd : d ≠ '\\') :
    cleanup_escapes st et ('\\' :: d :: rest2) =
      d :: cleanup_escapes st et rest2 := by
  rw [cleanup_escapes.eq_def]; simp [hnst, hd]
  intro h1 h2
  exact absurd ⟨(isPrefixOf_eq_true_iff _ _).mpr h1, h2⟩ hnet

theorem cleanup_ch (st et : List Char) (c : Char) (rest : List Char)
    (hbs : c ≠ '\\') :
    cleanup_escapes st et (c :: rest) = c :: cleanup_escapes st et rest := by
  rw [cleanup_escapes.eq_def]; simp [hbs]

theorem split_nil (token : List Char) (htok : token ≠ []) :
    split token htok [] = [[]] := by
  rw [split.eq_def]

theorem split_tok (token : List Char) (htok : token ≠ []) (c : Char)
    (rest : List Char) (h : token.isPrefixOf (c :: rest)) :
    split token htok (c :: rest) =
      [] :: split token htok ((c :: rest).drop token.length) := by
  rw [split.eq_def]; simp [h]

theorem split_ch (token : List Char) (htok : token ≠ []) (c : Char)
    (rest : List Char) (h : ¬token.isPrefixOf (c :: rest)) :
    split token htok (c :: rest) =
      (split token htok rest).modifyHead (c :: ·) := by
  rw [split.eq_def]; simp [h]

theorem replace_aux_nil (st et v : List Char) (hst : st ≠ []) (b : Bool) :
    replace_aux st et v hst b [] = [] := by
  rw [replace_aux.eq_def]

theorem replace_aux_bs_nil (st et v : List Char) (hst : st ≠ []) (b : Bool) :
    replace_aux st et v hst b ['\\'] = ['\\'] := by
  rw [replace_aux.eq_def]; simp

theorem replace_aux_bs_tok (st et v : List Char) (hst : st ≠ []) (b : Bool)
    (d : Char) (rest2 : List Char) (h : st.isPrefixOf (d :: rest2)) :
    replace_aux st et v hst b ('\\' :: d :: rest2) =
      '\\' :: (st ++ replace_aux st et v hst b
        ((d :: rest2).drop st.length)) := by
  rw [replace_aux.eq_def]; simp [h]

theorem replace_aux_bs_et (st et v : List Char) (hst : st ≠ []) (b : Bool)
    (d : Char) (rest2 : List Char) (hnst : ¬st.isPrefixOf (d :: rest2))
    (h : et.isPrefixOf (d :: rest2) ∧ et ≠ []) :
    replace_aux st et v hst b ('\\' :: d :: rest2) =
      '\\' :: (et ++ replace_aux st et v hst b
        ((d :: rest2).drop et.length)) := by
  rw [replace_aux.eq_def]; simp [hnst, h.1, h.2]

theorem replace_aux_bs_ch (st et v : List Char) (hst : st ≠ []) (b : Bool)
    (d : Char) (rest2 : List Char) (hnst : ¬st.isPrefixOf (d :: rest2))
    (hnet : ¬(et.isPrefixOf (d :: rest2) ∧ et ≠ [])) :
    replace_aux st et v hst b ('\\' :: d :: rest2) =
      '\\' :: d :: replace_aux st et v hst b rest2 := by
  rw [replace_aux.eq_def]; simp [hnst]
  intro h1 h2
  exact absurd ⟨(isPrefixOf_eq_true_iff _ _).mpr h1, h2⟩ hnet

theorem replace_aux_occ_some (st et v : List Char) (hst : st ≠ []) (c : Char)
    (rest : List Char) (p : Nat) (hbs : c ≠ '\\')
    (hpre : st.isPrefixOf (c :: rest))
    (hfe : find_end st et ((c :: rest).drop st.length) = some p) :
    replace_aux st et v hst false (c :: rest) =
      v ++ replace_aux st et v hst true
        (((c :: rest).drop st.length).drop (p + et.length)) := by
  rw [replace_aux.eq_def]; simp [hbs, hpre, hfe]

theorem replace_aux_occ_none (st et v : List Char) (hst : st ≠ []) (c : Char)
    (rest : List Char) (hbs : c ≠ '\\') (hpre : st.isPrefixOf (c :: rest))
    (hfe : find_end st et ((c :: rest).drop st.length) = none) :
    replace_aux st et v hst false (c :: rest) =
      v ++ replace_aux st et v hst true ((c :: rest).drop st.length) := by
  rw [replace_aux.eq_def]; simp [hbs, hpre, hfe]

theorem replace_aux_false_ch (st et v : List Char) (hst : st ≠ []) (c : Char)
    (rest : List Char) (hbs : c ≠ '\\') (hnpre : ¬st.isPrefixOf (c :: rest)) :
    replace_aux st et v hst false (c :: rest) =
      c :: replace_aux st et v hst false rest := by
  rw [replace_aux.eq_def]; simp [hbs, hnpre]

theorem replace_aux_true_cons (st et v : List Char) (hst : st ≠ []) (c : Char)
    (rest : List Char) (hbs : c ≠ '\\') :
    replace_aux st et v hst true (c :: rest) =
      c :: replace_aux st et v hst true rest := by
  rw [replace_aux.eq_def]; simp [hbs]

theorem sfu_nil (st et : List Char) : spec_first_unescaped st et [] = none := by
  rw [spec_first_unescaped.eq_def]

theorem sfu_bs_nil (st et : List Char) :
    spec_first_unescaped st et ['\\'] = none := by
  rw [spec_first_unescaped.eq_def]; simp

theorem sfu_bs_tok (st et : List Char) (d : Char) (rest2 : List Char)
    (h : st.isPrefixOf (d :: rest2)) :
    spec_first_unescaped st et ('\\' :: d :: rest2) =
      (spec_first_unescaped st et ((d :: rest2).drop st.length)).map
        (fun p => ('\\' :: ((d :: rest2).take st.length ++ p.1), p.2)) := by
  rw [spec_first_unescaped.eq_def]; simp [h]

theorem sfu_bs_et (st et : List Char) (d : Char) (rest2 : List Char)
    (hnst : ¬st.isPrefixOf (d :: rest2))
    (h : et.isPrefixOf (d :: rest2) ∧ et ≠ []) :
    spec_first_unescaped st et ('\\' :: d :: rest2) =
      (spec_first_unescaped st et ((d :: rest2).drop et.length)).map
        (fun p => ('\\' :: ((d :: rest2).take et.length ++ p.1), p.2)) := by
  rw [spec_first_unescaped.eq_def]; simp [hnst, h.1, h.2]

theorem sfu_bs_ch (st et : List Char) (d : Char) (rest2 : List Char)
    (hnst : ¬st.isPrefixOf (d :: rest2))
    (hnet : ¬(et.isPrefixOf (d :: rest2) ∧ et ≠ [])) :
    spec_first_unescaped st et ('\\' :: d :: rest2) =
      (spec_first_unescaped st et rest2).map
        (fun p => ('\\' :: d :: p.1, p.2)) := by
  rw [spec_first_unescaped.eq_def]; simp [hnst]
  intro h1 h2
  exact absurd ⟨(isPrefixOf_eq_true_iff _ _).mpr h1, h2⟩ hnet

theorem sfu_occ (st et : List Char) (c : Char) (rest : List Char)
    (hbs : c ≠ '\\') (h : st.isPrefixOf (c :: rest)) :
    spec_first_unescaped st et (c :: rest) = some ([], c :: rest) := by
  rw [spec_first_unescaped.eq_def]; simp [hbs, h]

theorem sfu_ch (st et : List Char) (c : Char) (rest : List Char)
    (hbs : c ≠ '\\') (h : ¬st.isPrefixOf (c :: rest)) :
    spec_first_unescaped st et (c :: rest) =
      (spec_first_unescaped st et rest).map (fun p => (c :: p.1, p.2)) := by
  rw [spec_first_unescaped.eq_def]; simp [hbs, h]

theorem cnt_nil (K : List Char) (hK : K ≠ []) : count_occurrences K hK [] = 0 := by
  rw [count_occurrences.eq_def]

theorem cnt_tok (K : List Char) (hK : K ≠ []) (c : Char) (rest : List Char)
    (h : K.isPrefixOf (c :: rest)) :
    count_occurrences K hK (c :: rest) =
      1 + count_occurrences K hK ((c :: rest).drop K.length) := by
  rw [count_occurrences.eq_def]; simp [h]

theorem cnt_ch (K : List Char) (hK : K ≠ []) (c : Char) (rest : List Char)
    (h : ¬K.isPrefixOf (c :: rest)) :
    count_occurrences K hK (c :: rest) = count_occurrences K hK rest := by
  rw [count_occurrences.eq_def]; simp [h]

theorem replace_all_nil (pat rep : List Char) (hpat : pat ≠ []) :
    replace_all pat rep hpat [] = [] := by
  rw [replace_all.eq_def]

theorem replace_all_tok (pat rep : List Char) (hpat : pat ≠ []) (c : Char)
    (rest : List Char) (h : pat.isPrefixOf (c :: rest)) :
    replace_all pat rep hpat (c :: rest) =
      rep ++ replace_all pat rep hpat ((c :: rest).drop pat.length) := by
  rw [replace_all.eq_def]; simp [h]

theorem replace_all_ch (pat rep : List Char) (hpat : pat ≠ []) (c : Char)
    (rest : List Char) (h : ¬pat.isPrefixOf (c :: rest)) :
    replace_all pat rep hpat (c :: rest) =
      c :: replace_all pat rep hpat rest := by
  rw [replace_all.eq_def]; simp [h]

theorem render_find_nil (token : List Char) : render_find token [] = none := by
  rw [render_find.eq_def]

theorem render_find_bs_nil (token : List Char) :
    render_find token ['\\'] = none := by
  rw [render_find.eq_def]; simp

theorem render_find_bs_tok (token : List Char) (d : Char) (rest2 : List Char)
    (h : token.isPrefixOf (d :: rest2)) :
    render_find token ('\\' :: d :: rest2) =
      (render_find token ((d :: rest2).drop token.length)).map
        (fun p => p + (1 + token.length)) := by
  rw [render_find.eq_def]; simp [h]

theorem render_find_bs_ch (token : List Char) (d : Char) (rest2 : List Char)
    (h : ¬token.isPrefixOf (d :: rest2)) :
    render_find token ('\\' :: d :: rest2) =
      (render_find token rest2).map (fun p => p + 2) := by
  rw [render_find.eq_def]; simp [h]

theorem render_find_occ (token : List Char) (c : Char) (rest : List Char)
    (hbs : c ≠ '\\') (h : token.isPrefixOf (c :: rest)) :
    render_find token (c :: rest) = some 0 := by
  rw [render_find.eq_def]; simp [hbs, h]

theorem render_find_ch (token : List Char) (c : Char) (rest : List Char)
    (hbs : c ≠ '\\') (h : ¬token.isPrefixOf (c :: rest)) :
    render_find token (c :: rest) =
      (render_find token rest).map (fun p => p + 1) := by
  rw [render_find.eq_def]; simp [hbs, h]

theorem res_nil (token ending : List Char) :
    render_end_search token ending [] = none := by
  rw [render_end_search.eq_def]

theorem res_bs_nil (token ending : List Char) :
    render_end_search token ending ['\\'] = none := by
  rw [render_end_search.eq_def]; simp

theorem res_bs (token ending : List Char) (d : Char) (rest2 : List Char) :
    render_end_search token ending ('\\' :: d :: rest2) =
      (render_end_search token ending rest2).map (fun p => p + 2) := by
  rw [render_end_search.eq_def]; simp

theorem res_tok (token ending : List Char) (c : Char) (rest : List Char)
    (hbs : c ≠ '\\') (h : token.isPrefixOf (c :: rest)) :
    render_end_search token ending (c :: rest) = none := by
  rw [render_end_search.eq_def]; simp [hbs, h]

theorem res_et (token ending : List Char) (c : Char) (rest : List Char)
    (hbs : c ≠ '\\') (hnt : ¬token.isPrefixOf (c :: rest))
    (h : ending.isPrefixOf (c :: rest)) :
    render_end_search token ending (c :: rest) = some ending.length := by
  rw [render_end_search.eq_def]; simp [hbs, hnt, h]

theorem res_sp (token ending : List Char) (rest : List Char)
    (hnt : ¬token.isPrefixOf (' ' :: rest))
    (hne : ¬ending.isPrefixOf (' ' :: rest)) :
    render_end_search token ending (' ' :: rest) = none := by
  rw [render_end_search.eq_def]; simp [hnt, hne]

theorem res_ch (token ending : List Char) (c : Char) (rest : List Char)
    (hbs : c ≠ '\\') (hnt : ¬token.isPrefixOf (c :: rest))
    (hne : ¬ending.isPrefixOf (c :: rest)) (hsp : c ≠ ' ') :
    render_end_search token ending (c :: rest) =
      (render_end_search token ending rest).map (fun p => p + 1) := by
  rw [render_end_search.eq_def]; simp [hbs, hnt, hne, hsp]

theorem consume_tail_some (st et : List Char) (suf : List Char) (p : Nat)
    (h : find_end st et (suf.drop st.length) = some p) :
    consume_tail st et suf = (suf.drop st.length).drop (p + et.length) := by
  simp [consume_tail, h]

theorem consume_tail_none (st et : List Char) (suf : List Char)
    (h : find_end st et (suf.drop st.length) = none) :
    consume_tail st et suf = suf.drop st.length := by
  simp [consume_tail, h]

/-! ### The scanner splits the buffer -/

theorem sfu_split (st et : List Char) (s : List Char) :
    ∀ pre suf, spec_first_unescaped st et s = some (pre, suf) →
      s = pre ++ suf ∧ st <+: suf ∧ ∀ c r, suf = c :: r → c ≠ '\\' := by
  induction s using spec_first_unescaped.induct st et with
  | case1 => intro pre suf h; rw [sfu_nil] at h; cases h
  | case2 => intro pre suf h; rw [sfu_bs_nil] at h; cases h
  | case3 d rest2 hpre ih =>
    intro pre suf h
    rw [sfu_bs_tok st et d rest2 hpre] at h
    cases hrec : spec_first_unescaped st et ((d :: rest2).drop st.length) with
    | none => rw [hrec] at h; cases h
    | some q =>
      rw [hrec] at h
      cases h
      obtain ⟨h1, h2, h3⟩ := ih q.1 q.2 (by rw [hrec])
      refine ⟨?_, h2, h3⟩
      have htake : (d :: rest2).take st.length ++ (d :: rest2).drop st.length
          = d :: rest2 := List.take_append_drop _ _
      calc '\\' :: d :: rest2
          = '\\' :: ((d :: rest2).take st.length ++ (d :: rest2).drop st.length) := by
            rw [htake]
        _ = '\\' :: ((d :: rest2).take st.length ++ (q.1 ++ q.2)) := by rw [← h1]
        _ = '\\' :: ((d :: rest2).take st.length ++ q.1) ++ q.2 := by simp
  | case4 d rest2 hnst hpre ih =>
    intro pre suf h
    rw [sfu_bs_et st et d rest2 hnst ⟨hpre.1, hpre.2⟩] at h
    cases hrec : spec_first_unescaped st et ((d :: rest2).drop et.length) with
    | none => rw [hrec] at h; cases h
    | some q =>
      rw [hrec] at h
      cases h
      obtain ⟨h1, h2, h3⟩ := ih q.1 q.2 (by rw [hrec])
      refine ⟨?_, h2, h3⟩
      have htake : (d :: rest2).take et.length ++ (d :: rest2).drop et.length
          = d :: rest2 := List.take_append_drop _ _
      calc '\\' :: d :: rest2
          = '\\' :: ((d :: rest2).take et.length ++ (d :: rest2).drop et.length) := by
            rw [htake]
        _ = '\\' :: ((d :: rest2).take et.length ++ (q.1 ++ q.2)) := by rw [← h1]
        _ = '\\' :: ((d :: rest2).take et.length ++ q.1) ++ q.2 := by simp
  | case5 d rest2 hnst hnet ih =>
    intro pre suf h
    rw [sfu_bs_ch st et d rest2 hnst hnet] at h
    cases hrec : spec_first_unescaped st et rest2 with
    | none => rw [hrec] at h; cases h
    | some q =>
      rw [hrec] at h
      cases h
      obtain ⟨h1, h2, h3⟩ := ih q.1 q.2 (by rw [hrec])
      exact ⟨by simp [h1], h2, h3⟩
  | case6 d rest2 hbs hpre =>
    intro pre suf h
    rw [sfu_occ st et d rest2 hbs hpre] at h
    cases h
    exact ⟨rfl, (isPrefixOf_eq_true_iff _ _).mp hpre,
      fun c r hcr => by cases hcr; exact hbs⟩
  | case7 d rest2 hbs hnpre ih =>
    intro pre suf h
    rw [sfu_ch st et d rest2 hbs hnpre] at h
    cases hrec : spec_first_unescaped st et rest2 with
    | none => rw [hrec] at h; cases h
    | some q =>
      rw [hrec] at h
      cases h
      obtain ⟨h1, h2, h3⟩ := ih q.1 q.2 (by rw [hrec])
      exact ⟨by simp [h1], h2, h3⟩

theorem prefix_append_drop (st s : List Char) (h : st.isPrefixOf s) :
    st ++ s.drop st.length = s := by
  obtain ⟨r, hr⟩ := (isPrefixOf_eq_true_iff _ _).mp h
  subst hr
  rw [List.drop_left]

theorem take_len_of_isPrefixOf (st s : List Char) (h : st.isPrefixOf s) :
    s.take st.length = st := by
  obtain ⟨r, hr⟩ := (isPrefixOf_eq_true_iff _ _).mp h
  subst hr
  rw [List.take_left]

/-! ### Master correctness of the replace loop

`replace_aux` with `replaced = true` copies the buffer verbatim;
`replace_aux` with `replaced = false` is the identity when the
specification scanner finds no unescaped occurrence, and otherwise
emits the verbatim prefix, the value, and the verbatim remainder chosen
by `find_end`. -/

theorem replace_master (st et v : List Char) (hst : st ≠ []) (b : Bool)
    (s : List Char) :
    (b = true → replace_aux st et v hst b s = s) ∧
    (b = false →
      (spec_first_unescaped st et s = none →
        replace_aux st et v hst b s = s) ∧
      (∀ pre suf, spec_first_unescaped st et s = some (pre, suf) →
        replace_aux st et v hst b s = pre ++ v ++ consume_tail st et suf)) := by
  induction b, s using replace_aux.induct st et v hst with
  | case1 x =>
    refine ⟨fun _ => replace_aux_nil st et v hst x, fun _ => ⟨fun _ => replace_aux_nil st et v hst x, ?_⟩⟩
    intro pre suf h
    rw [sfu_nil] at h; cases h
  | case2 replaced =>
    refine ⟨fun _ => replace_aux_bs_nil st et v hst replaced,
      fun _ => ⟨fun _ => replace_aux_bs_nil st et v hst replaced, ?_⟩⟩
    intro pre suf h
    rw [sfu_bs_nil] at h; cases h
  | case3 replaced d rest2 hpre ih =>
    rw [replace_aux_bs_tok st et v hst replaced d rest2 hpre]
    constructor
    · intro hb
      subst hb
      rw [ih.1 rfl, prefix_append_drop st (d :: rest2) hpre]
    · intro hb
      subst hb
      constructor
      · intro hn
        rw [sfu_bs_tok st et d rest2 hpre] at hn
        cases hrec : spec_first_unescaped st et ((d :: rest2).drop st.length) with
        | none =>
          rw [(ih.2 rfl).1 hrec, prefix_append_drop st (d :: rest2) hpre]
        | some q => rw [hrec] at hn; cases hn
      · intro pre suf h
        rw [sfu_bs_tok st et d rest2 hpre] at h
        cases hrec : spec_first_unescaped st et ((d :: rest2).drop st.length) with
        | none => rw [hrec] at h; cases h
        | some q =>
          rw [hrec] at h
          cases h
          rw [(ih.2 rfl).2 q.1 q.2 (by rw [hrec]),
            take_len_of_isPrefixOf st (d :: rest2) hpre]
          simp
  | case4 replaced d rest2 hnst hetc ih =>
    rw [replace_aux_bs_et st et v hst replaced d rest2 hnst hetc]
    have hpre := hetc.1
    constructor
    · intro hb
      subst hb
      rw [ih.1 rfl, prefix_append_drop et (d :: rest2) hpre]
    · intro hb
      subst hb
      constructor
      · intro hn
        rw [sfu_bs_et st et d rest2 hnst hetc] at hn
        cases hrec : spec_first_unescaped st et ((d :: rest2).drop et.length) with
        | none =>
          rw [(ih.2 rfl).1 hrec, prefix_append_drop et (d :: rest2) hpre]
        | some q => rw [hrec] at hn; cases hn
      · intro pre suf h
        rw [sfu_bs_et st et d rest2 hnst hetc] at h
        cases hrec : spec_first_unescaped st et ((d :: rest2).drop et.length) with
        | none => rw [hrec] at h; cases h
        | some q =>
          rw [hrec] at h
          cases h
          rw [(ih.2 rfl).2 q.1 q.2 (by rw [hrec]),
            take_len_of_isPrefixOf et (d :: rest2) hpre]
          simp
  | case5 replaced d rest2 hnst hnet ih =>
    rw [replace_aux_bs_ch st et v hst replaced d rest2 hnst hnet]
    constructor
    · intro hb
      subst hb
      rw [ih.1 rfl]
    · intro hb
      subst hb
      constructor
      · intro hn
        rw [sfu_bs_ch st et d rest2 hnst hnet] at hn
        cases hrec : spec_first_unescaped st et rest2 with
        | none => rw [(ih.2 rfl).1 hrec]
        | some q => rw [hrec] at hn; cases hn
      · intro pre suf h
        rw [sfu_bs_ch st et d rest2 hnst hnet] at h
        cases hrec : spec_first_unescaped st et rest2 with
        | none => rw [hrec] at h; cases h
        | some q =>
          rw [hrec] at h
          cases h
          rw [(ih.2 rfl).2 q.1 q.2 (by rw [hrec])]
          simp
  | case6 replaced c rest hbs hcond p hfe ih =>
    constructor
    · intro hb
      rw [hb] at hcond
      exact absurd hcond.1 (by simp)
    · intro hb
      subst hb
      rw [replace_aux_occ_some st et v hst c rest p hbs hcond.2 hfe]
      constructor
      · intro hn
        rw [sfu_occ st et c rest hbs hcond.2] at hn
        cases hn
      · intro pre suf h
        rw [sfu_occ st et c rest hbs hcond.2] at h
        cases h
        rw [ih.1 rfl, consume_tail_some st et (c :: rest) p hfe]
        simp
  | case7 replaced c rest hbs hcond hfe ih =>
    constructor
    · intro hb
      rw [hb] at hcond
      exact absurd hcond.1 (by simp)
    · intro hb
      subst hb
      rw [replace_aux_occ_none st et v hst c rest hbs hcond.2 hfe]
      constructor
      · intro hn
        rw [sfu_occ st et c rest hbs hcond.2] at hn
        cases hn
      · intro pre suf h
        rw [sfu_occ st et c rest hbs hcond.2] at h
        cases h
        rw [ih.1 rfl, consume_tail_none st et (c :: rest) hfe]
        simp
  | case8 replaced c rest hbs hncond ih =>
    constructor
    · intro hb
      subst hb
      rw [replace_aux_true_cons st et v hst c rest hbs, ih.1 rfl]
    · intro hb
      subst hb
      have hnpre : ¬st.isPrefixOf (c :: rest) := by
        intro hp
        exact hncond ⟨rfl, hp⟩
      rw [replace_aux_false_ch st et v hst c rest hbs hnpre]
      constructor
      · intro hn
        rw [sfu_ch st et c rest hbs hnpre] at hn
        cases hrec : spec_first_unescaped st et rest with
        | none => rw [(ih.2 rfl).1 hrec]
        | some q => rw [hrec] at hn; cases hn
      · intro pre suf h
        rw [sfu_ch st et c rest hbs hnpre] at h
        cases hrec : spec_first_unescaped st et rest with
        | none => rw [hrec] at h; cases h
        | some q =>
          rw [hrec] at h
          cases h
          rw [(ih.2 rfl).2 q.1 q.2 (by rw [hrec])]
          simp

theorem replace_aux_true_id (st et v : List Char) (hst : st ≠ [])
    (s : List Char) : replace_aux st et v hst true s = s :=
  (replace_master st et v hst true s).1 rfl

theorem replace_of_sfu_none (st et v : List Char) (hst : st ≠ [])
    (s : List Char) (h : spec_first_unescaped st et s = none) :
    replace_parameter st et v hst s = s :=
  ((replace_master st et v hst false s).2 rfl).1 h

theorem replace_of_sfu_some (st et v : List Char) (hst : st ≠ [])
    (s pre suf : List Char)
    (h : spec_first_unescaped st et s = some (pre, suf)) :
    replace_parameter st et v hst s = pre ++ v ++ consume_tail st et suf :=
  ((replace_master st et v hst false s).2 rfl).2 pre suf h

/-! ### Characterization of the inner end search -/

theorem find_end_of_et_nil (st : List Char) (r : List Char) :
    find_end st [] r = none := by
  induction r using find_end.induct st [] with
  | case1 => exact find_end_nil st []
  | case2 => exact find_end_bs_nil st []
  | case3 d rest2 ih => rw [find_end_bs, ih]; rfl
  | case4 d rest2 hbs het => exact absurd rfl het.1
  | case5 d rest2 hbs hnet hst => exact find_end_tok st [] d rest2 hbs hnet hst
  | case6 d rest2 hbs hnet hnst ih =>
    rw [find_end_ch st [] d rest2 hbs hnet hnst, ih]; rfl

theorem find_end_some_split (st et : List Char) (r : List Char) :
    ∀ p : Nat, find_end st et r = some p →
      ∃ A, A.length = p ∧ r = A ++ et ++ r.drop (p + et.length) := by
  induction r using find_end.induct st et with
  | case1 => intro p h; rw [find_end_nil] at h; cases h
  | case2 => intro p h; rw [find_end_bs_nil] at h; cases h
  | case3 d rest2 ih =>
    intro p h
    rw [find_end_bs] at h
    cases hrec : find_end st et rest2 with
    | none => rw [hrec] at h; cases h
    | some q =>
      rw [hrec] at h
      cases h
      obtain ⟨A, hA, hsplit⟩ := ih q hrec
      refine ⟨'\\' :: d :: A, by simp [hA], ?_⟩
      calc '\\' :: d :: rest2
          = '\\' :: d :: (A ++ et ++ rest2.drop (q + et.length)) := by
            rw [← hsplit]
        _ = ('\\' :: d :: A) ++ et ++
              (('\\' :: d :: rest2).drop (q + 2 + et.length)) := by
            have hd : ('\\' :: d :: rest2).drop (q + 2 + et.length)
                = rest2.drop (q + et.length) := by
              have he : q + 2 + et.length = (q + et.length) + 1 + 1 := by omega
              rw [he, List.drop_succ_cons, List.drop_succ_cons]
            rw [hd]
            simp
  | case4 d rest2 hbs het =>
    intro p h
    rw [find_end_et st et d rest2 hbs het] at h
    cases h
    obtain ⟨w, hw⟩ := (isPrefixOf_eq_true_iff _ _).mp het.2
    refine ⟨[], rfl, ?_⟩
    rw [← hw]
    simp [List.drop_left]
  | case5 d rest2 hbs hnet hst =>
    intro p h
    rw [find_end_tok st et d rest2 hbs hnet hst] at h
    cases h
  | case6 d rest2 hbs hnet hnst ih =>
    intro p h
    rw [find_end_ch st et d rest2 hbs hnet hnst] at h
    cases hrec : find_end st et rest2 with
    | none => rw [hrec] at h; cases h
    | some q =>
      rw [hrec] at h
      cases h
      obtain ⟨A, hA, hsplit⟩ := ih q hrec
      refine ⟨d :: A, by simp [hA], ?_⟩
      calc d :: rest2
          = d :: (A ++ et ++ rest2.drop (q + et.length)) := by rw [← hsplit]
        _ = (d :: A) ++ et ++ ((d :: rest2).drop (q + 1 + et.length)) := by
            have hd : (d :: rest2).drop (q + 1 + et.length)
                = rest2.drop (q + et.length) := by
              have he : q + 1 + et.length = (q + et.length) + 1 := by omega
              rw [he, List.drop_succ_cons]
            rw [hd]
            simp

theorem consume_tail_suffix (st et : List Char) (suf : List Char) :
    consume_tail st et suf <:+ suf := by
  unfold consume_tail
  cases find_end st et (suf.drop st.length) with
  | none => exact List.drop_suffix _ _
  | some p => exact (List.drop_suffix _ _).trans (List.drop_suffix _ _)

/-- C1: `replace_parameter` replaces only the first (leftmost) unescaped
occurrence of `start_token` with the value: the buffer is split as
`pre ++ suf` where `pre` (escape markers included) is copied verbatim,
`suf` begins with the occurrence, and the output is `pre`, then the
value, then a verbatim suffix of `suf` (so everything after the replaced
occurrence, including all later occurrences, is untouched); when the
template has no unescaped occurrence of `start_token`, the result is the
input unchanged. -/
theorem C1_replace_first_unescaped (st et v s : List Char) (hst : st ≠ []) :
    (spec_first_unescaped st et s = none →
      replace_parameter st et v hst s = s) ∧
    (∀ pre suf, spec_first_unescaped st et s = some (pre, suf) →
      s = pre ++ suf ∧ st <+: suf ∧
      ∃ tail, tail <:+ suf ∧
        replace_parameter st et v hst s = pre ++ v ++ tail) := by
  constructor
  · exact replace_of_sfu_none st et v hst s
  · intro pre suf h
    obtain ⟨h1, h2, _⟩ := sfu_split st et s pre suf h
    exact ⟨h1, h2, consume_tail st et suf, consume_tail_suffix st et suf,
      replace_of_sfu_some st et v hst s pre suf h⟩

/-- Witness for C1, scenario D of the spec: template `"w\##!e##"`,
tokens `("#", "!")`, value `"r"`.  The scanner finds the occurrence after
the escaped `\#`, and the theorem applies. -/
theorem C1_witness :
    (['#'] : List Char) ≠ [] ∧
    spec_first_unescaped ['#'] ['!'] ['w', '\\', '#', '#', '!', 'e', '#', '#']
      = some (['w', '\\', '#'], ['#', '!', 'e', '#', '#']) ∧
    (∀ pre suf,
      spec_first_unescaped ['#'] ['!'] ['w', '\\', '#', '#', '!', 'e', '#', '#']
        = some (pre, suf) →
      ['w', '\\', '#', '#', '!', 'e', '#', '#'] = pre ++ suf ∧
      ['#'] <+: suf ∧
      ∃ tail, tail <:+ suf ∧
        replace_parameter ['#'] ['!'] ['r'] (by decide)
          ['w', '\\', '#', '#', '!', 'e', '#', '#'] = pre ++ ['r'] ++ tail) := by
  refine ⟨by decide, ?_, (C1_replace_first_unescaped ['#'] ['!'] ['r']
    ['w', '\\', '#', '#', '!', 'e', '#', '#'] (by decide)).2⟩
  simp [spec_first_unescaped, List.isPrefixOf]

/-- C2: given the first unescaped occurrence (`s = pre ++ suf`, `suf`
starting with `start_token`), the replacement consumes up to and
including the first unescaped `end_token` found by the forward search
when one exists, and otherwise — empty `end_token`, no `end_token`
occurrence in the remainder at all, or an immediate further
`start_token` — consumes exactly the `start_token`, leaving the whole
remainder (later `start_token` included) verbatim. -/
theorem C2_end_search (st et v s : List Char) (hst : st ≠ [])
    (pre suf : List Char)
    (h : spec_first_unescaped st et s = some (pre, suf)) :
    (et = [] →
      replace_parameter st et v hst s = pre ++ v ++ suf.drop st.length) ∧
    (find_end st et (suf.drop st.length) = none →
      replace_parameter st et v hst s = pre ++ v ++ suf.drop st.length) ∧
    (¬et <:+: suf.drop st.length →
      replace_parameter st et v hst s = pre ++ v ++ suf.drop st.length) ∧
    (st.isPrefixOf (suf.drop st.length) →
      ¬(et ≠ [] ∧ et.isPrefixOf (suf.drop st.length)) →
      replace_parameter st et v hst s = pre ++ v ++ suf.drop st.length) ∧
    (∀ p, find_end st et (suf.drop st.length) = some p →
      (∃ A, A.length = p ∧
        suf.drop st.length
          = A ++ et ++ (suf.drop st.length).drop (p + et.length)) ∧
      replace_parameter st et v hst s
        = pre ++ v ++ (suf.drop st.length).drop (p + et.length)) := by
  have hmain := replace_of_sfu_some st et v hst s pre suf h
  have hnone : find_end st et (suf.drop st.length) = none →
      replace_parameter st et v hst s = pre ++ v ++ suf.drop st.length := by
    intro hfe
    rw [hmain, consume_tail_none st et suf hfe]
  refine ⟨?_, hnone, ?_, ?_, ?_⟩
  · intro hetnil
    subst hetnil
    exact hnone (find_end_of_et_nil st _)
  · intro hnsub
    cases hfe : find_end st et (suf.drop st.length) with
    | none => exact hnone hfe
    | some p =>
      obtain ⟨A, _, hsplit⟩ := find_end_some_split st et _ p hfe
      exact absurd ⟨A, (suf.drop st.length).drop (p + et.length), hsplit.symm⟩
        hnsub
  · intro hsp hnet
    obtain ⟨h1s, h2s, hhead⟩ := sfu_split st et s pre suf h
    cases hrem : suf.drop st.length with
    | nil =>
      rw [hrem] at hsp
      obtain ⟨w, hw⟩ := (isPrefixOf_eq_true_iff _ _).mp hsp
      exact absurd (List.append_eq_nil.mp hw).1 hst
    | cons c r =>
      rw [hrem] at hsp hnet
      obtain ⟨st0, st', hstc⟩ := List.exists_cons_of_ne_nil hst
      have hsufsplit : st ++ suf.drop st.length = suf :=
        prefix_append_drop st suf ((isPrefixOf_eq_true_iff _ _).mpr h2s)
      have hsuf0 := hsufsplit.symm
      rw [hstc] at hsuf0
      have hst0 : st0 ≠ '\\' := hhead st0 _ (by rw [hsuf0]; rfl)
      obtain ⟨w, hw⟩ := (isPrefixOf_eq_true_iff _ _).mp hsp
      have hceq : c = st0 := by
        rw [hstc] at hw
        exact (((List.cons.injEq _ _ _ _).mp hw).1).symm
      have hcne : c ≠ '\\' := hceq ▸ hst0
      have hfe := find_end_tok st et c r hcne hnet hsp
      rw [← hrem] at hfe
      exact hrem ▸ hnone hfe
  · intro p hfe
    exact ⟨find_end_some_split st et _ p hfe,
      by rw [hmain, consume_tail_some st et suf p hfe]⟩

/-- Witness for C2: template `"#a#b!"`, tokens `("#", "!")`: the inner
search meets the second `#` before any `!`, so only the `#` is consumed
and the remainder `"a#b!"` is kept verbatim. -/
theorem C2_witness :
    (['#'] : List Char) ≠ [] ∧
    spec_first_unescaped ['#'] ['!'] ['#', 'a', '#', 'b', '!']
      = some ([], ['#', 'a', '#', 'b', '!']) ∧
    find_end ['#'] ['!'] ['a', '#', 'b', '!'] = none ∧
    (find_end ['#'] ['!'] (['#', 'a', '#', 'b', '!'].drop (['#'] : List Char).length) = none →
      replace_parameter ['#'] ['!'] ['v'] (by decide) ['#', 'a', '#', 'b', '!']
        = [] ++ ['v'] ++ ['#', 'a', '#', 'b', '!'].drop (['#'] : List Char).length) := by
  refine ⟨by decide, by simp [spec_first_unescaped, List.isPrefixOf], ?_, ?_⟩
  · simp [find_end, List.isPrefixOf]
  · exact (C2_end_search ['#'] ['!'] ['v'] ['#', 'a', '#', 'b', '!'] (by decide)
      [] ['#', 'a', '#', 'b', '!']
      (by simp [spec_first_unescaped, List.isPrefixOf])).2.1

/-! ### Counting -/

theorem gpc_eq_count (K : List Char) (hK : K ≠ [])
    (hhead : ∀ K0 K', K = K0 :: K' → K0 ≠ '\\') :
    ∀ T, ¬('\\' :: K) <:+: T →
      get_parameter_count K hK T = count_occurrences K hK T := by
  intro T
  induction T using get_parameter_count.induct K hK with
  | case1 =>
    intro _
    rw [gpc_nil, cnt_nil]
  | case2 =>
    intro _
    rw [gpc_bs_nil]
    have hnp : ¬K.isPrefixOf ['\\'] := by
      intro hp
      obtain ⟨K0, K', hk⟩ := List.exists_cons_of_ne_nil hK
      obtain ⟨w, hw⟩ := (isPrefixOf_eq_true_iff _ _).mp hp
      rw [hk] at hw
      exact hhead K0 K' hk (((List.cons.injEq _ _ _ _).mp hw).1)
    rw [cnt_ch K hK '\\' [] hnp, cnt_nil]
  | case3 d rest2 hp ih =>
    intro hnesc
    exfalso
    obtain ⟨w, hw⟩ := (isPrefixOf_eq_true_iff _ _).mp hp
    exact hnesc ⟨[], w, by simp [← hw]⟩
  | case4 d rest2 hnp ih =>
    intro hnesc
    have hstep : ∀ X : List Char, X <:+: rest2 → X <:+: ('\\' :: d :: rest2) :=
      fun X hX => List.infix_cons (List.infix_cons hX)
    rw [gpc_bs_ch K hK d rest2 hnp]
    have hnpbs : ¬K.isPrefixOf ('\\' :: d :: rest2) := by
      intro hp
      obtain ⟨K0, K', hk⟩ := List.exists_cons_of_ne_nil hK
      obtain ⟨w, hw⟩ := (isPrefixOf_eq_true_iff _ _).mp hp
      rw [hk] at hw
      exact hhead K0 K' hk (((List.cons.injEq _ _ _ _).mp hw).1)
    rw [cnt_ch K hK '\\' (d :: rest2) hnpbs, cnt_ch K hK d rest2 hnp]
    exact ih (fun hX => hnesc (hstep _ hX))
  | case5 c rest hbs hp ih =>
    intro hnesc
    rw [gpc_tok K hK c rest hbs hp, cnt_tok K hK c rest hp]
    have harg : ∀ X : List Char, X <:+: ((c :: rest).drop K.length) →
        X <:+: (c :: rest) :=
      fun X hX => hX.trans (List.drop_suffix _ _).isInfix
    rw [ih (fun hX => hnesc (harg _ hX))]
  | case6 c rest hbs hnp ih =>
    intro hnesc
    rw [gpc_ch K hK c rest hbs hnp, cnt_ch K hK c rest hnp]
    exact ih (fun hX => hnesc (List.infix_cons hX))

/-- C3 (amended): for a token that does not itself start with a
backslash, when no occurrence of `K` in `T` is immediately preceded by a
backslash (no `\K` substring), the scan count equals the number of
non-overlapping literal occurrences counted left to right. -/
theorem C3_count_matches (K T : List Char) (hK : K ≠ [])
    (hhead : ∀ K0 K', K = K0 :: K' → K0 ≠ '\\')
    (hnesc : ¬('\\' :: K) <:+: T) :
    get_parameter_count K hK T = count_occurrences K hK T :=
  gpc_eq_count K hK hhead T hnesc

/-- Counterexample to C3 as stated: `K = "\a"`, `T = "\a"`.  No occurrence
of `K` in `T` is preceded by a backslash (the only occurrence is at the
start), yet the scan counts 0 while `T` contains exactly one literal
occurrence: the backslash branch of the scan hides a token that itself
begins with a backslash. -/
theorem C3_counterexample :
    ¬('\\' :: ['\\', 'a']) <:+: (['\\', 'a'] : List Char) ∧
    get_parameter_count ['\\', 'a'] (by decide) ['\\', 'a'] = 0 ∧
    count_occurrences ['\\', 'a'] (by decide) ['\\', 'a'] = 1 := by
  refine ⟨by decide, ?_, ?_⟩
  · simp [get_parameter_count, List.isPrefixOf]
  · simp [count_occurrences, List.isPrefixOf]

/-- Witness for C3: `K = "#"`, `T = "a#\bq#"` (no `\#` substring): both
sides count 2. -/
theorem C3_witness :
    ¬('\\' :: ['#']) <:+: (['a', '#', '\\', 'b', 'q', '#'] : List Char) ∧
    get_parameter_count ['#'] (by decide) ['a', '#', '\\', 'b', 'q', '#']
      = count_occurrences ['#'] (by decide) ['a', '#', '\\', 'b', 'q', '#'] ∧
    get_parameter_count ['#'] (by decide) ['a', '#', '\\', 'b', 'q', '#'] = 2 := by
  refine ⟨by decide,
    C3_count_matches ['#'] ['a', '#', '\\', 'b', 'q', '#'] (by decide)
      (fun K0 K' h => by cases h; decide) (by decide), ?_⟩
  simp [get_parameter_count, List.isPrefixOf]

/-! ### Escape and cleanup round trip -/

theorem prefix_append_cases (u A B : List Char) (h : u <+: A ++ B) :
    u <+: A ∨ ∃ w, u = A ++ w ∧ w <+: B := by
  rcases le_or_lt u.length A.length with hle | hlt
  · exact Or.inl (List.prefix_of_prefix_length_le h (List.prefix_append A B) hle)
  · right
    have hAu : A <+: u :=
      List.prefix_of_prefix_length_le (List.prefix_append A B) h (by omega)
    obtain ⟨w, hw⟩ := hAu
    refine ⟨w, hw.symm, ?_⟩
    obtain ⟨r, hr⟩ := h
    rw [← hw] at hr
    exact ⟨r, by simpa using hr⟩

theorem prefix_of_escape (st et : List Char) (hst : st ≠ []) :
    ∀ X, ∀ w : List Char, '\\' ∉ w →
      w <+: escape_input st et hst X → w <+: X := by
  intro X
  induction X using escape_input.induct st et hst with
  | case1 =>
    intro w hw h
    rw [escape_nil] at h
    rw [List.prefix_nil.mp h]
  | case2 rest ih =>
    intro w hw h
    rw [escape_bs] at h
    cases w with
    | nil => exact List.nil_prefix
    | cons w0 w' =>
      obtain ⟨r, hr⟩ := h
      have hw0 : w0 = '\\' := ((List.cons.injEq _ _ _ _).mp hr).1
      exact absurd (hw0 ▸ List.mem_cons_self w0 w') hw
  | case3 c rest hbs hp ih =>
    intro w hw h
    rw [escape_tok st et hst c rest hbs hp] at h
    cases w with
    | nil => exact List.nil_prefix
    | cons w0 w' =>
      obtain ⟨r, hr⟩ := h
      have hw0 : w0 = '\\' := ((List.cons.injEq _ _ _ _).mp hr).1
      exact absurd (hw0 ▸ List.mem_cons_self w0 w') hw
  | case4 c rest hbs hnst hetc ih =>
    intro w hw h
    rw [escape_et st et hst c rest hbs hnst hetc] at h
    cases w with
    | nil => exact List.nil_prefix
    | cons w0 w' =>
      obtain ⟨r, hr⟩ := h
      have hw0 : w0 = '\\' := ((List.cons.injEq _ _ _ _).mp hr).1
      exact absurd (hw0 ▸ List.mem_cons_self w0 w') hw
  | case5 c rest hbs hnst hnet ih =>
    intro w hw h
    rw [escape_ch st et hst c rest hbs hnst hnet] at h
    cases w with
    | nil => exact List.nil_prefix
    | cons w0 w' =>
      obtain ⟨r, hr⟩ := h
      obtain ⟨h1, h2⟩ := (List.cons.injEq _ _ _ _).mp hr
      subst h1
      have hw' : '\\' ∉ w' := fun hm => hw (List.mem_cons_of_mem _ hm)
      obtain ⟨r2, hr2⟩ := ih w' hw' ⟨r, h2⟩
      exact ⟨r2, by rw [List.cons_append, hr2]⟩

theorem cleanup_bs_prefix_tok (st et : List Char) (hst : st ≠ [])
    (X : List Char) :
    cleanup_escapes st et ('\\' :: (st ++ X)) = st ++ cleanup_escapes st et X := by
  obtain ⟨st0, st', h⟩ := List.exists_cons_of_ne_nil hst
  rw [h, List.cons_append,
    cleanup_bs_tok (st0 :: st') et st0 (st' ++ X)
      ((isPrefixOf_eq_true_iff _ _).mpr ⟨X, by simp⟩),
    ← List.cons_append, List.drop_left]

theorem cleanup_bs_prefix_et (st et : List Char) (hetne : et ≠ [])
    (X : List Char) (hnst : ¬st.isPrefixOf (et ++ X)) :
    cleanup_escapes st et ('\\' :: (et ++ X)) = et ++ cleanup_escapes st et X := by
  obtain ⟨e0, et', h⟩ := List.exists_cons_of_ne_nil hetne
  rw [h] at hnst ⊢
  rw [List.cons_append] at hnst ⊢
  rw [cleanup_bs_et st (e0 :: et') e0 (et' ++ X) hnst
      ⟨(isPrefixOf_eq_true_iff _ _).mpr ⟨X, by simp⟩, by simp⟩,
    ← List.cons_append, List.drop_left]

/-- C4 (amended): escaping then cleaning is the identity for every
backslash-free payload and every token pair whose `start_token` is
non-empty and backslash-free (the `end_token` is unrestricted). -/
theorem C4_escape_cleanup_id (st et : List Char) (hst : st ≠ [])
    (hstbs : '\\' ∉ st) :
    ∀ T, '\\' ∉ T →
      cleanup_escapes st et (escape_input st et hst T) = T := by
  intro T
  induction T using escape_input.induct st et hst with
  | case1 =>
    intro _
    rw [escape_nil, cleanup_nil]
  | case2 rest ih =>
    intro hT
    exact absurd (List.mem_cons_self '\\' rest) hT
  | case3 c rest hbs hp ih =>
    intro hT
    have hTdrop : '\\' ∉ (c :: rest).drop st.length :=
      fun hm => hT (List.drop_subset _ _ hm)
    rw [escape_tok st et hst c rest hbs hp, cleanup_bs_prefix_tok st et hst,
      ih hTdrop, prefix_append_drop st (c :: rest) hp]
  | case4 c rest hbs hnst hetc ih =>
    intro hT
    have hTdrop : '\\' ∉ (c :: rest).drop et.length :=
      fun hm => hT (List.drop_subset _ _ hm)
    rw [escape_et st et hst c rest hbs hnst hetc]
    have hnstp : ¬st.isPrefixOf
        (et ++ escape_input st et hst ((c :: rest).drop et.length)) := by
      intro hsp
      have hsp2 := (isPrefixOf_eq_true_iff _ _).mp hsp
      rcases prefix_append_cases st et _ hsp2 with hcase | ⟨w, hwst, hwE⟩
      · have hst2 : st <+: (c :: rest) :=
          hcase.trans ((isPrefixOf_eq_true_iff _ _).mp hetc.2)
        exact hnst ((isPrefixOf_eq_true_iff _ _).mpr hst2)
      · have hwbs : '\\' ∉ w := by
          intro hm
          exact hstbs (hwst ▸ List.mem_append_right et hm)
        have hwpre : w <+: (c :: rest).drop et.length :=
          prefix_of_escape st et hst _ w hwbs hwE
        obtain ⟨r, hr⟩ := hwpre
        have hst2 : st <+: (c :: rest) := by
          refine ⟨r, ?_⟩
          rw [hwst, List.append_assoc, hr,
            prefix_append_drop et (c :: rest) hetc.2]
        exact hnst ((isPrefixOf_eq_true_iff _ _).mpr hst2)
    rw [cleanup_bs_prefix_et st et hetc.1 _ hnstp, ih hTdrop,
      prefix_append_drop et (c :: rest) hetc.2]
  | case5 c rest hbs hnst hnet ih =>
    intro hT
    have hTrest : '\\' ∉ rest := fun hm => hT (List.mem_cons_of_mem _ hm)
    rw [escape_ch st et hst c rest hbs hnst hnet,
      cleanup_ch st et c _ hbs, ih hTrest]

/-- Counterexample to C4 as stated: `start_token = "a\a"` (containing a
backslash), `end_token = "a"`, payload `T = "aa"` (backslash-free).
Escaping yields `"\a\a"`, which cleanup misparses as an escaped
`start_token`, giving `"a\a" ≠ "aa"`. -/
theorem C4_counterexample :
    ('\\' : Char) ∉ (['a', 'a'] : List Char) ∧
    cleanup_escapes ['a', '\\', 'a'] ['a']
        (escape_input ['a', '\\', 'a'] ['a'] (by decide) ['a', 'a'])
      = ['a', '\\', 'a'] ∧
    (['a', '\\', 'a'] : List Char) ≠ ['a', 'a'] := by
  refine ⟨by decide, ?_, by decide⟩
  simp [escape_input, cleanup_escapes, List.isPrefixOf]

/-- Witness for C4: tokens `("#", "!")`, payload `"x#!z"`. -/
theorem C4_witness :
    ('\\' : Char) ∉ (['x', '#', '!', 'z'] : List Char) ∧
    escape_input ['#'] ['!'] (by decide) ['x', '#', '!', 'z']
      = ['x', '\\', '#', '\\', '!', 'z'] ∧
    cleanup_escapes ['#'] ['!']
        (escape_input ['#'] ['!'] (by decide) ['x', '#', '!', 'z'])
      = ['x', '#', '!', 'z'] := by
  refine ⟨by decide, ?_, C4_escape_cleanup_id ['#'] ['!'] (by decide)
    (by decide) ['x', '#', '!', 'z'] (by decide)⟩
  simp [escape_input, List.isPrefixOf]

/-! ### Idempotence of cleanup -/

theorem cleanup_id_of_bs_free (st et : List Char) :
    ∀ s : List Char, '\\' ∉ s → cleanup_escapes st et s = s := by
  intro s
  induction s with
  | nil => intro _; rw [cleanup_nil]
  | cons c rest ih =>
    intro hs
    have hc : c ≠ '\\' := fun h => hs (h ▸ List.mem_cons_self c rest)
    rw [cleanup_ch st et c rest hc,
      ih (fun hm => hs (List.mem_cons_of_mem _ hm))]

/-- C5 (amended): `cleanup_escapes` is idempotent on every template whose
first cleanup pass leaves no backslash — in particular on any already
clean text, where it is the identity.  (Unrestricted idempotence fails:
a pass turns `\\` into `\` and a second pass consumes that again.) -/
theorem C5_cleanup_idempotent (st et T : List Char) (hst : st ≠ [])
    (h : '\\' ∉ cleanup_escapes st et T) :
    cleanup_escapes st et (cleanup_escapes st et T) = cleanup_escapes st et T :=
  cleanup_id_of_bs_free st et (cleanup_escapes st et T) h

/-- Counterexample to C5 as stated: `T = "\\\\"` (two backslashes) with
tokens `("#", "!")`.  One pass gives `"\\"`, a second pass gives `""`. -/
theorem C5_counterexample :
    cleanup_escapes ['#'] ['!'] ['\\', '\\'] = ['\\'] ∧
    cleanup_escapes ['#'] ['!'] (cleanup_escapes ['#'] ['!'] ['\\', '\\'])
      = [] ∧
    ([] : List Char) ≠ ['\\'] := by
  refine ⟨?_, ?_, by decide⟩
  · simp [cleanup_escapes, List.isPrefixOf]
  · simp [cleanup_escapes, List.isPrefixOf]

/-- Witness for C5: `T = "\#q"` cleans to `"#q"`, which is
backslash-free, so a second pass changes nothing. -/
theorem C5_witness :
    cleanup_escapes ['#'] ['!'] ['\\', '#', 'q'] = ['#', 'q'] ∧
    ('\\' : Char) ∉ cleanup_escapes ['#'] ['!'] ['\\', '#', 'q'] ∧
    cleanup_escapes ['#'] ['!']
        (cleanup_escapes ['#'] ['!'] ['\\', '#', 'q'])
      = cleanup_escapes ['#'] ['!'] ['\\', '#', 'q'] := by
  have h1 : cleanup_escapes ['#'] ['!'] ['\\', '#', 'q'] = ['#', 'q'] := by
    simp [cleanup_escapes, List.isPrefixOf]
  refine ⟨h1, by rw [h1]; decide,
    C5_cleanup_idempotent ['#'] ['!'] ['\\', '#', 'q'] (by decide)
      (by rw [h1]; decide)⟩

/-- C6 (amended): in `cleanup_escapes`, when a backslash is followed by
text that is neither `start_token`, nor a non-empty `end_token`, nor
another backslash, only the following character is emitted — the
backslash is dropped — and a lone backslash at the very end of the
buffer is likewise dropped. -/
theorem C6_cleanup_other (st et : List Char) (c : Char) (rest : List Char)
    (hbs : c ≠ '\\') (hnst : ¬st.isPrefixOf (c :: rest))
    (hnet : ¬(et.isPrefixOf (c :: rest) ∧ et ≠ [])) :
    cleanup_escapes st et ('\\' :: c :: rest) = c :: cleanup_escapes st et rest
    ∧ cleanup_escapes st et ['\\'] = [] :=
  ⟨cleanup_bs_ch st et c rest hnst hnet hbs, cleanup_bs_nil st et⟩

/-- Counterexample to C6 as stated: with tokens `("#", "!")`, cleanup maps
`"\q"` to `"q"` (the backslash is not emitted) and `"\"` to `""` (the
trailing backslash is not preserved). -/
theorem C6_counterexample :
    cleanup_escapes ['#'] ['!'] ['\\', 'q'] = ['q'] ∧
    (['q'] : List Char) ≠ ['\\', 'q'] ∧
    cleanup_escapes ['#'] ['!'] ['\\'] = [] ∧
    ([] : List Char) ≠ ['\\'] := by
  refine ⟨?_, by decide, ?_, by decide⟩
  · simp [cleanup_escapes, List.isPrefixOf]
  · simp [cleanup_escapes]

/-- Witness for C6: tokens `("#", "!")`, `c = 'q'`, `rest = "z"`. -/
theorem C6_witness :
    ('q' : Char) ≠ '\\' ∧
    ¬(['#'] : List Char).isPrefixOf ['q', 'z'] ∧
    ¬((['!'] : List Char).isPrefixOf ['q', 'z'] ∧ (['!'] : List Char) ≠ []) ∧
    (cleanup_escapes ['#'] ['!'] ['\\', 'q', 'z']
        = 'q' :: cleanup_escapes ['#'] ['!'] ['z']
      ∧ cleanup_escapes ['#'] ['!'] ['\\'] = []) :=
  ⟨by decide, by decide, by decide,
    C6_cleanup_other ['#'] ['!'] 'q' ['z'] (by decide) (by decide) (by decide)⟩

/-! ### Splitting is lossless -/

theorem split_ne_nil (token : List Char) (htok : token ≠ []) :
    ∀ s, split token htok s ≠ [] := by
  intro s
  induction s using split.induct token htok with
  | case1 => rw [split_nil]; simp
  | case2 c rest hp ih => rw [split_tok token htok c rest hp]; simp
  | case3 c rest hnp ih =>
    rw [split_ch token htok c rest hnp]
    cases hsp : split token htok rest with
    | nil => exact absurd hsp ih
    | cons l0 L => simp [List.modifyHead]

theorem interleave_join_single (token l0 : List Char) :
    (interleave_token token [l0]).flatten = l0 := by
  by_cases h : l0 = [] <;> simp [interleave_token, h]

theorem interleave_join_cons2 (token l0 l1 : List Char) (L : List (List Char)) :
    (interleave_token token (l0 :: l1 :: L)).flatten
      = l0 ++ token ++ (interleave_token token (l1 :: L)).flatten := by
  by_cases h : l0 = [] <;> simp [interleave_token, h]

/-- C10: concatenating, in order, the pieces returned by
`split_inclusive_token` recovers the original command text exactly:
empty pieces are dropped but one token element is emitted per split
boundary, so no text is lost. -/
theorem C10_split_inclusive_lossless (token : List Char) (htok : token ≠ []) :
    ∀ s, (split_inclusive_token token htok s).flatten = s := by
  intro s
  unfold split_inclusive_token
  induction s using split.induct token htok with
  | case1 => rw [split_nil]; simp [interleave_token]
  | case2 c rest hp ih =>
    rw [split_tok token htok c rest hp]
    cases hsp : split token htok ((c :: rest).drop token.length) with
    | nil => exact absurd hsp (split_ne_nil token htok _)
    | cons l0 L =>
      rw [hsp] at ih
      rw [interleave_join_cons2 token [] l0 L, ih]
      simpa using prefix_append_drop token (c :: rest) hp
  | case3 c rest hnp ih =>
    rw [split_ch token htok c rest hnp]
    cases hsp : split token htok rest with
    | nil => exact absurd hsp (split_ne_nil token htok _)
    | cons l0 L =>
      rw [hsp] at ih
      rw [List.modifyHead]
      cases L with
      | nil =>
        rw [interleave_join_single] at ih
        rw [interleave_join_single, ih]
      | cons l1 L' =>
        rw [interleave_join_cons2] at ih
        rw [interleave_join_cons2]
        rw [List.cons_append, List.cons_append, ih]

/-- Witness for C10: token `" "`, command `"a  b"`: the pieces are
`["a", " ", " ", "b"]` and concatenate back to the input. -/
theorem C10_witness :
    ([' '] : List Char) ≠ [] ∧
    split_inclusive_token [' '] (by decide) ['a', ' ', ' ', 'b']
      = [['a'], [' '], [' '], ['b']] ∧
    (split_inclusive_token [' '] (by decide) ['a', ' ', ' ', 'b']).flatten
      = ['a', ' ', ' ', 'b'] := by
  refine ⟨by decide, ?_,
    C10_split_inclusive_lossless [' '] (by decide) ['a', ' ', ' ', 'b']⟩
  simp [split_inclusive_token, split, interleave_token, List.isPrefixOf]

/-! ### The guard step of the submit handler -/

theorem prefix_of_replace_all (pat : List Char) (hpat : pat ≠ []) (c : Char) :
    ∀ s, ∀ w : List Char, c ∉ w →
      w <+: replace_all pat [c] hpat s → w <+: s := by
  intro s
  induction s using replace_all.induct pat [c] hpat with
  | case1 =>
    intro w hw h
    rw [replace_all_nil] at h
    rw [List.prefix_nil.mp h]
  | case2 c0 rest hp ih =>
    intro w hw h
    rw [replace_all_tok pat [c] hpat c0 rest hp] at h
    cases w with
    | nil => exact List.nil_prefix
    | cons w0 w' =>
      obtain ⟨r, hr⟩ := h
      have hw0 : w0 = c := ((List.cons.injEq _ _ _ _).mp hr).1
      exact absurd (hw0 ▸ List.mem_cons_self w0 w') hw
  | case3 c0 rest hnp ih =>
    intro w hw h
    rw [replace_all_ch pat [c] hpat c0 rest hnp] at h
    cases w with
    | nil => exact List.nil_prefix
    | cons w0 w' =>
      obtain ⟨r, hr⟩ := h
      obtain ⟨h1, h2⟩ := (List.cons.injEq _ _ _ _).mp hr
      subst h1
      have hw' : c ∉ w' := fun hm => hw (List.mem_cons_of_mem _ hm)
      obtain ⟨r2, hr2⟩ := ih w' hw' ⟨r, h2⟩
      exact ⟨r2, by rw [List.cons_append, hr2]⟩

theorem not_infix_replace_all (pat : List Char) (hpat : pat ≠ []) (c : Char)
    (hc : c ∉ pat) :
    ∀ s, ¬pat <:+: replace_all pat [c] hpat s := by
  intro s
  induction s using replace_all.induct pat [c] hpat with
  | case1 =>
    rw [replace_all_nil]
    intro h
    exact hpat (List.infix_nil.mp h)
  | case2 c0 rest hp ih =>
    rw [replace_all_tok pat [c] hpat c0 rest hp]
    intro h
    rcases List.infix_cons_iff.mp h with hpre | hinf
    · obtain ⟨r, hr⟩ := hpre
      obtain ⟨p0, p', hpc⟩ := List.exists_cons_of_ne_nil hpat
      have hr2 : (p0 :: p') ++ r = c :: replace_all pat [c] hpat
          ((c0 :: rest).drop pat.length) := by
        rw [← hpc]
        simpa using hr
      have hp0 : p0 = c := ((List.cons.injEq _ _ _ _).mp hr2).1
      exact hc (hpc ▸ (hp0 ▸ List.mem_cons_self p0 p'))
    · exact ih hinf
  | case3 c0 rest hnp ih =>
    rw [replace_all_ch pat [c] hpat c0 rest hnp]
    intro h
    rcases List.infix_cons_iff.mp h with hpre | hinf
    · obtain ⟨r, hr⟩ := hpre
      obtain ⟨p0, p', hpc⟩ := List.exists_cons_of_ne_nil hpat
      have hr2 : (p0 :: p') ++ r
          = c0 :: replace_all pat [c] hpat rest := by
        rw [← hpc]
        exact hr
      obtain ⟨h1, h2⟩ := (List.cons.injEq _ _ _ _).mp hr2
      have hcp' : c ∉ p' := fun hm => hc (hpc ▸ List.mem_cons_of_mem _ hm)
      obtain ⟨r2, hr3⟩ :=
        prefix_of_replace_all pat hpat c rest p' hcp' ⟨r, h2⟩
      have hppre : pat <+: c0 :: rest := by
        rw [hpc, h1]
        exact ⟨r2, by rw [List.cons_append, hr3]⟩
      exact hnp ((isPrefixOf_eq_true_iff _ _).mpr hppre)
    · exact ih hinf

theorem replace_all_keeps_absence (pat : List Char) (hpat : pat ≠ [])
    (c : Char) (q : List Char) (hcq : c ∉ q) :
    ∀ s, ¬q <:+: s → ¬q <:+: replace_all pat [c] hpat s := by
  intro s
  induction s using replace_all.induct pat [c] hpat with
  | case1 =>
    intro hX
    rw [replace_all_nil]
    exact hX
  | case2 c0 rest hp ih =>
    intro hX
    rw [replace_all_tok pat [c] hpat c0 rest hp]
    intro h
    rcases List.infix_cons_iff.mp h with hpre | hinf
    · cases q with
      | nil => exact hX List.nil_infix
      | cons q0 q' =>
        obtain ⟨r, hr⟩ := hpre
        have hq0 : q0 = c := ((List.cons.injEq _ _ _ _).mp (by simpa using hr)).1
        exact hcq (hq0 ▸ List.mem_cons_self q0 q')
    · have hXd : ¬q <:+: (c0 :: rest).drop pat.length := by
        intro hq
        exact hX (hq.trans (List.drop_suffix _ _).isInfix)
      exact ih hXd hinf
  | case3 c0 rest hnp ih =>
    intro hX
    rw [replace_all_ch pat [c] hpat c0 rest hnp]
    intro h
    rcases List.infix_cons_iff.mp h with hpre | hinf
    · cases q with
      | nil => exact hX List.nil_infix
      | cons q0 q' =>
        obtain ⟨r, hr⟩ := hpre
        obtain ⟨h1, h2⟩ := (List.cons.injEq _ _ _ _).mp hr
        have hcq' : c ∉ q' := fun hm => hcq (List.mem_cons_of_mem _ hm)
        obtain ⟨r2, hr2⟩ :=
          prefix_of_replace_all pat hpat c rest q' hcq' ⟨r, h2⟩
        have hqpre : q0 :: q' <+: c0 :: rest := by
          rw [h1]
          exact ⟨r2, by rw [List.cons_append, hr2]⟩
        exact hX hqpre.isInfix
    · have hXr : ¬q <:+: rest := fun hq => hX (List.infix_cons hq)
      exact ih hXr hinf

theorem gpc_zero_of_no_occurrence (K : List Char) (hK : K ≠ []) :
    ∀ s, ¬K <:+: s → get_parameter_count K hK s = 0 := by
  intro s
  induction s using get_parameter_count.induct K hK with
  | case1 => intro _; rw [gpc_nil]
  | case2 => intro _; rw [gpc_bs_nil]
  | case3 d rest2 hp ih =>
    intro hX
    exfalso
    obtain ⟨w, hw⟩ := (isPrefixOf_eq_true_iff _ _).mp hp
    have hpre : K <+: d :: rest2 := ⟨w, hw⟩
    exact hX (List.infix_cons hpre.isInfix)
  | case4 d rest2 hnp ih =>
    intro hX
    rw [gpc_bs_ch K hK d rest2 hnp]
    exact ih (fun hq => hX (List.infix_cons (List.infix_cons hq)))
  | case5 d rest2 hbs hp =>
    intro hX
    exfalso
    obtain ⟨w, hw⟩ := (isPrefixOf_eq_true_iff _ _).mp hp
    have hpre : K <+: d :: rest2 := ⟨w, hw⟩
    exact hX hpre.isInfix
  | case6 d rest2 hbs hnp ih =>
    intro hX
    rw [gpc_ch K hK d rest2 hbs hnp]
    exact ih (fun hq => hX (List.infix_cons hq))

theorem placeholder_mem_replace_all (pat : List Char) (hpat : pat ≠ [])
    (c : Char) :
    ∀ s, pat <:+: s → c ∈ replace_all pat [c] hpat s := by
  intro s
  induction s using replace_all.induct pat [c] hpat with
  | case1 =>
    intro h
    exact absurd (List.infix_nil.mp h) hpat
  | case2 c0 rest hp ih =>
    intro _
    rw [replace_all_tok pat [c] hpat c0 rest hp]
    exact List.mem_append_left _ (List.mem_cons_self c [])
  | case3 c0 rest hnp ih =>
    intro h
    rw [replace_all_ch pat [c] hpat c0 rest hnp]
    rcases List.infix_cons_iff.mp h with hpre | hinf
    · exact absurd ((isPrefixOf_eq_true_iff _ _).mpr hpre) hnp
    · exact List.mem_cons_of_mem _ (ih hinf)

theorem mem_replace_all_of_mem (pat : List Char) (hpat : pat ≠ [])
    (c x : Char) (hx : x ∉ pat) :
    ∀ s, x ∈ s → x ∈ replace_all pat [c] hpat s := by
  intro s
  induction s using replace_all.induct pat [c] hpat with
  | case1 => intro h; cases h
  | case2 c0 rest hp ih =>
    intro h
    rw [replace_all_tok pat [c] hpat c0 rest hp]
    have hsplit : pat ++ (c0 :: rest).drop pat.length = c0 :: rest :=
      prefix_append_drop pat (c0 :: rest) hp
    have hxd : x ∈ (c0 :: rest).drop pat.length := by
      rcases List.mem_append.mp (hsplit ▸ h) with hone | htwo
      · exact absurd hone hx
      · exact htwo
    exact List.mem_append_right _ (ih hxd)
  | case3 c0 rest hnp ih =>
    intro h
    rw [replace_all_ch pat [c] hpat c0 rest hnp]
    rcases List.mem_cons.mp h with h1 | h2
    · exact h1 ▸ List.mem_cons_self _ _
    · exact List.mem_cons_of_mem _ (ih h2)

theorem mem_cleanup_of_mem (st et : List Char) (x : Char) (hxbs : x ≠ '\\')
    (hxst : x ∉ st) (hxet : x ∉ et) :
    ∀ s, x ∈ s → x ∈ cleanup_escapes st et s := by
  intro s
  induction s using cleanup_escapes.induct st et with
  | case1 => intro h; cases h
  | case2 =>
    intro h
    rcases List.mem_cons.mp h with h1 | h2
    · exact absurd h1 hxbs
    · cases h2
  | case3 d rest2 hp ih =>
    intro h
    rw [cleanup_bs_tok st et d rest2 hp]
    have hsplit : st ++ (d :: rest2).drop st.length = d :: rest2 :=
      prefix_append_drop st (d :: rest2) hp
    have hxd : x ∈ (d :: rest2).drop st.length := by
      rcases List.mem_cons.mp h with h1 | h2
      · exact absurd h1 hxbs
      · rcases List.mem_append.mp (hsplit ▸ h2) with hone | htwo
        · exact absurd hone hxst
        · exact htwo
    exact List.mem_append_right _ (ih hxd)
  | case4 d rest2 hnp hetc ih =>
    intro h
    rw [cleanup_bs_et st et d rest2 hnp hetc]
    have hsplit : et ++ (d :: rest2).drop et.length = d :: rest2 :=
      prefix_append_drop et (d :: rest2) hetc.1
    have hxd : x ∈ (d :: rest2).drop et.length := by
      rcases List.mem_cons.mp h with h1 | h2
      · exact absurd h1 hxbs
      · rcases List.mem_append.mp (hsplit ▸ h2) with hone | htwo
        · exact absurd hone hxet
        · exact htwo
    exact List.mem_append_right _ (ih hxd)
  | case5 rest2 hnp hnet ih =>
    intro h
    rw [cleanup_bs_bs st et rest2 hnp hnet]
    have hx2 : x ∈ rest2 := by
      rcases List.mem_cons.mp h with h1 | h2
      · exact absurd h1 hxbs
      · rcases List.mem_cons.mp h2 with h3 | h4
        · exact absurd h3 hxbs
        · exact h4
    exact List.mem_cons_of_mem _ (ih hx2)
  | case6 d rest2 hnp hnet hd ih =>
    intro h
    rcases List.mem_cons.mp h with h1 | h2
    · exact absurd h1 hxbs
    · rw [cleanup_bs_ch st et d rest2 hnp hnet hd]
      rcases List.mem_cons.mp h2 with h3 | h4
      · exact h3 ▸ List.mem_cons_self _ _
      · exact List.mem_cons_of_mem _ (ih h4)
  | case7 c rest hbs ih =>
    intro h
    rw [cleanup_ch st et c rest hbs]
    rcases List.mem_cons.mp h with h1 | h2
    · exact h1 ▸ List.mem_cons_self _ _
    · exact List.mem_cons_of_mem _ (ih h2)

theorem replace_char_append (p : Char) (rep : List Char) (a b : List Char) :
    replace_char p rep (a ++ b)
      = replace_char p rep a ++ replace_char p rep b := by
  induction a with
  | nil => rfl
  | cons c rest ih => simp [replace_char, ih]

theorem replace_char_id_of_not_mem (p : Char) (rep : List Char)
    (w : List Char) (hw : p ∉ w) : replace_char p rep w = w := by
  induction w with
  | nil => rfl
  | cons c rest ih =>
    have hc : c ≠ p := fun h => hw (h ▸ List.mem_cons_self c rest)
    simp [replace_char, hc, ih (fun hm => hw (List.mem_cons_of_mem _ hm))]

theorem replace_char_gives_occurrence (p : Char) (rep : List Char) :
    ∀ s, p ∈ s → rep <:+: replace_char p rep s := by
  intro s
  induction s with
  | nil => intro h; cases h
  | cons c rest ih =>
    intro h
    by_cases hc : c = p
    · refine List.infix_iff_prefix_suffix.mpr ⟨replace_char p rep (c :: rest), ?_, List.suffix_refl _⟩
      simp [replace_char, hc]
    · rcases List.mem_cons.mp h with h1 | h2
      · exact absurd h1.symm hc
      · have := ih h2
        simp only [replace_char, if_neg hc]
        exact (List.infix_cons this)

theorem replace_char_keeps_occurrence (p : Char) (rep : List Char)
    (w : List Char) (hw : p ∉ w) (s : List Char) (h : w <:+: s) :
    w <:+: replace_char p rep s := by
  obtain ⟨a, b, hab⟩ := h
  refine ⟨replace_char p rep a, replace_char p rep b, ?_⟩
  rw [← replace_char_id_of_not_mem p rep w hw, ← replace_char_append,
    ← replace_char_append, hab]

/-- The guarded value contains no occurrence of `start_token` at all,
provided the placeholders do not occur inside `start_token`. -/
theorem guard_value_no_occurrence (st et : List Char) (hst : st ≠ [])
    (h0s : placeholder_start ∉ st) (h1s : placeholder_end ∉ st)
    (input : List Char) :
    ¬st <:+: guard_value st et hst input := by
  unfold guard_value
  by_cases het : et ≠ []
  · rw [dif_pos het]
    exact replace_all_keeps_absence et het placeholder_end st h1s _
      (not_infix_replace_all st hst placeholder_start h0s input)
  · rw [dif_neg het]
    exact not_infix_replace_all st hst placeholder_start h0s input

/-- The guarded value keeps one placeholder per guarded occurrence;
in particular it contains U+E000 whenever the raw value contained the
literal `start_token`. -/
theorem guard_value_mem_placeholder (st et : List Char) (hst : st ≠ [])
    (h0e : placeholder_start ∉ et) (input : List Char)
    (hin : st <:+: input) :
    placeholder_start ∈ guard_value st et hst input := by
  unfold guard_value
  by_cases het : et ≠ []
  · rw [dif_pos het]
    exact mem_replace_all_of_mem et het placeholder_end placeholder_start h0e _
      (placeholder_mem_replace_all st hst placeholder_start input hin)
  · rw [dif_neg het]
    exact placeholder_mem_replace_all st hst placeholder_start input hin

/-- C7 (amended): when the submitted value contains the literal
`start_token`, the handler guards it with the reserved placeholders
U+E000/U+E001 before calling `replace_parameter` and restores them only
after the final cleanup pass.  The guarded value contains no occurrence
of `start_token` (so the user's answer is never counted or consumed as a
parameter occurrence), the placeholder marking the user's token text is
present in the guarded value, and when this submit resolves an
occurrence and finishes the session, the returned final command contains
the user's literal `start_token` text. -/
theorem C7_submit_guard (st et input cmd : List Char) (hst : st ≠ [])
    (h0s : placeholder_start ∉ st) (h1s : placeholder_end ∉ st)
    (h0e : placeholder_start ∉ et) (hin : st <:+: input) :
    ¬st <:+: guard_value st et hst input ∧
    get_parameter_count st hst (guard_value st et hst input) = 0 ∧
    placeholder_start ∈ guard_value st et hst input ∧
    (∀ pre suf, spec_first_unescaped st et cmd = some (pre, suf) →
      ∀ final, (key_submit st et hst input cmd).1 = some final →
        st <:+: final) := by
  have hno := guard_value_no_occurrence st et hst h0s h1s input
  have hmem := guard_value_mem_placeholder st et hst h0e input hin
  refine ⟨hno, gpc_zero_of_no_occurrence st hst _ hno, hmem, ?_⟩
  intro pre suf hsfu final hfin
  simp only [key_submit] at hfin
  by_cases hcnt : get_parameter_count st hst
      (replace_parameter st et (guard_value st et hst input) hst cmd) = 0
  · rw [if_pos hcnt] at hfin
    have hfinal : final = restore_value st et (cleanup_escapes st et
        (replace_parameter st et (guard_value st et hst input) hst cmd)) :=
      ((Option.some.injEq _ _).mp hfin).symm
    subst hfinal
    have hrepl := replace_of_sfu_some st et (guard_value st et hst input)
      hst cmd pre suf hsfu
    have hmem2 : placeholder_start ∈
        replace_parameter st et (guard_value st et hst input) hst cmd := by
      rw [hrepl]
      exact List.mem_append_left _ (List.mem_append_right _ hmem)
    have hmem3 : placeholder_start ∈ cleanup_escapes st et
        (replace_parameter st et (guard_value st et hst input) hst cmd) :=
      mem_cleanup_of_mem st et placeholder_start (by decide) h0s h0e _ hmem2
    unfold restore_value
    have hocc := replace_char_gives_occurrence placeholder_start st _ hmem3
    by_cases het : et ≠ []
    · rw [if_pos het]
      exact replace_char_keeps_occurrence placeholder_end et st h1s _ hocc
    · rw [if_neg het]
      exact hocc
  · rw [if_neg hcnt] at hfin
    cases hfin

/-- Counterexample to C7 as stated: `start_token = "ab"`,
`end_token = "!"`, template `"aabz!q!"`, first value `"bab!x"` (which
contains the literal `"ab"`), second value `"y"`.  After the first round
the guarded text sits right after an `"a"` of the template, so the next
round finds an occurrence `"ab"` spanning the boundary and consumes the
placeholder region as payload: the final command is `"y"` and the user's
literal `"ab"` has vanished, contradicting "the final resolved command
contains the user's literal token text". -/
theorem C7_counterexample :
    (['a', 'b'] : List Char) <:+: ['b', 'a', 'b', '!', 'x'] ∧
    (key_submit ['a', 'b'] ['!'] (by decide) ['b', 'a', 'b', '!', 'x']
        ['a', 'a', 'b', 'z', '!', 'q', '!']).1 = none ∧
    (key_submit ['a', 'b'] ['!'] (by decide) ['b', 'a', 'b', '!', 'x']
        ['a', 'a', 'b', 'z', '!', 'q', '!']).2
      = ['a', 'b', '\uE000', '\uE001', 'x', 'q', '!'] ∧
    (key_submit ['a', 'b'] ['!'] (by decide) ['y']
        ['a', 'b', '\uE000', '\uE001', 'x', 'q', '!']).1 = some ['y'] ∧
    ¬(['a', 'b'] : List Char) <:+: ['y'] := by
  refine ⟨by decide, ?_, ?_, ?_, by decide⟩ <;>
    simp [key_submit, guard_value, restore_value, replace_parameter,
      replace_aux, find_end, get_parameter_count, cleanup_escapes,
      replace_all, replace_char, placeholder_start, placeholder_end,
      List.isPrefixOf]

/-- Witness for C7: tokens `("#", "!")`, value `"a#b"`, template
`"x#y!z"`: the session finishes in one round and the final command
`"xa#bz"` contains the user's literal `#`. -/
theorem C7_witness :
    (['#'] : List Char) ≠ [] ∧
    placeholder_start ∉ (['#'] : List Char) ∧
    (['#'] : List Char) <:+: ['a', '#', 'b'] ∧
    (key_submit ['#'] ['!'] (by decide) ['a', '#', 'b']
        ['x', '#', 'y', '!', 'z']).1 = some ['x', 'a', '#', 'b', 'z'] ∧
    (∀ pre suf,
      spec_first_unescaped ['#'] ['!'] ['x', '#', 'y', '!', 'z']
        = some (pre, suf) →
      ∀ final,
        (key_submit ['#'] ['!'] (by decide) ['a', '#', 'b']
          ['x', '#', 'y', '!', 'z']).1 = some final →
        (['#'] : List Char) <:+: final) := by
  refine ⟨by decide, by decide, by decide, ?_,
    (C7_submit_guard ['#'] ['!'] ['a', '#', 'b'] ['x', '#', 'y', '!', 'z']
      (by decide) (by decide) (by decide) (by decide) (by decide)).2.2.2⟩
  simp [key_submit, guard_value, restore_value, replace_parameter,
    replace_aux, find_end, get_parameter_count, cleanup_escapes,
    replace_all, replace_char, placeholder_start, placeholder_end,
    List.isPrefixOf]

/-! ### The highlight renderer -/

theorem render_find_occurrence (token : List Char) :
    ∀ s, ∀ pos, render_find token s = some pos →
      token.isPrefixOf (s.drop pos) := by
  intro s
  induction s using render_find.induct token with
  | case1 => intro pos h; rw [render_find_nil] at h; cases h
  | case2 => intro pos h; rw [render_find_bs_nil] at h; cases h
  | case3 d rest2 hp ih =>
    intro pos h
    rw [render_find_bs_tok token d rest2 hp] at h
    cases hrec : render_find token ((d :: rest2).drop token.length) with
    | none => rw [hrec] at h; cases h
    | some p =>
      rw [hrec] at h
      cases h
      have := ih p hrec
      have hdd : ('\\' :: d :: rest2).drop (p + (1 + token.length))
          = ((d :: rest2).drop token.length).drop p := by
        rw [List.drop_drop]
        have he : p + (1 + token.length) = token.length + p + 1 := by omega
        rw [he, List.drop_succ_cons]
      rw [hdd]
      exact this
  | case4 d rest2 hnp ih =>
    intro pos h
    rw [render_find_bs_ch token d rest2 hnp] at h
    cases hrec : render_find token rest2 with
    | none => rw [hrec] at h; cases h
    | some p =>
      rw [hrec] at h
      cases h
      have hdd : ('\\' :: d :: rest2).drop (p + 2) = rest2.drop p := by
        have he : p + 2 = p + 1 + 1 := by omega
        rw [he, List.drop_succ_cons, List.drop_succ_cons]
      rw [hdd]
      exact ih p hrec
  | case5 c rest hbs hp =>
    intro pos h
    rw [render_find_occ token c rest hbs hp] at h
    cases h
    exact hp
  | case6 c rest hbs hnp ih =>
    intro pos h
    rw [render_find_ch token c rest hbs hnp] at h
    cases hrec : render_find token rest with
    | none => rw [hrec] at h; cases h
    | some p =>
      rw [hrec] at h
      cases h
      rw [List.drop_succ_cons]
      exact ih p hrec

theorem render_end_search_occurrence (token ending : List Char) :
    ∀ r, ∀ off, render_end_search token ending r = some off →
      ∃ A, r = A ++ ending ++ r.drop off ∧ off = A.length + ending.length := by
  intro r
  induction r using render_end_search.induct token ending with
  | case1 => intro off h; rw [res_nil] at h; cases h
  | case2 => intro off h; rw [res_bs_nil] at h; cases h
  | case3 d rest2 ih =>
    intro off h
    rw [res_bs] at h
    cases hrec : render_end_search token ending rest2 with
    | none => rw [hrec] at h; cases h
    | some p =>
      rw [hrec] at h
      cases h
      obtain ⟨A, hsplit, hlen⟩ := ih p hrec
      refine ⟨'\\' :: d :: A, ?_, by simp [hlen]; omega⟩
      have hdd : ('\\' :: d :: rest2).drop (p + 2) = rest2.drop p := by
        have he : p + 2 = p + 1 + 1 := by omega
        rw [he, List.drop_succ_cons, List.drop_succ_cons]
      rw [hdd]
      calc '\\' :: d :: rest2 = '\\' :: d :: (A ++ ending ++ rest2.drop p) := by
            rw [← hsplit]
        _ = ('\\' :: d :: A) ++ ending ++ rest2.drop p := by simp
  | case4 c rest hbs hp =>
    intro off h
    rw [res_tok token ending c rest hbs hp] at h
    cases h
  | case5 c rest hbs hnt hp =>
    intro off h
    rw [res_et token ending c rest hbs hnt hp] at h
    cases h
    obtain ⟨w, hw⟩ := (isPrefixOf_eq_true_iff _ _).mp hp
    refine ⟨[], ?_, by simp⟩
    rw [← hw, List.drop_left]
    simp
  | case6 rest hbs2 hnt hne =>
    intro off h
    rw [res_sp token ending rest hnt hne] at h
    cases h
  | case7 c rest hbs hnt hne hsp ih =>
    intro off h
    rw [res_ch token ending c rest hbs hnt hne hsp] at h
    cases hrec : render_end_search token ending rest with
    | none => rw [hrec] at h; cases h
    | some p =>
      rw [hrec] at h
      cases h
      obtain ⟨A, hsplit, hlen⟩ := ih p hrec
      refine ⟨c :: A, ?_, by simp [hlen]; omega⟩
      rw [List.drop_succ_cons]
      calc c :: rest = c :: (A ++ ending ++ rest.drop p) := by rw [← hsplit]
        _ = (c :: A) ++ ending ++ rest.drop p := by simp

/-- C8 (amended): the highlight renderer locates the first unescaped
occurrence of `token` with its own token-only escape scan and returns a
span starting there; no span is produced when no unescaped occurrence
exists.  With a non-empty ending token, the end search skips escaped
pairs and stops at a `token` occurrence or a space, but checks the
ending token *before* the space rule; when it succeeds the span extends
exactly through a real occurrence of the ending token, and otherwise
(failure, or empty ending token) the span covers exactly `token`. -/
theorem C8_render_span (token ending s : List Char) :
    (render_find token s = none → render_span token ending s = none) ∧
    (∀ pos, render_find token s = some pos →
      token.isPrefixOf (s.drop pos) ∧
      (ending = [] → render_span token ending s = some (pos, token.length)) ∧
      (render_end_search token ending (s.drop (pos + token.length)) = none →
        render_span token ending s = some (pos, token.length)) ∧
      (∀ off, ending ≠ [] →
        render_end_search token ending (s.drop (pos + token.length))
            = some off →
        render_span token ending s = some (pos, token.length + off) ∧
        ∃ A, s.drop (pos + token.length)
            = A ++ ending ++ (s.drop (pos + token.length)).drop off ∧
          off = A.length + ending.length)) := by
  constructor
  · intro h
    simp [render_span, h]
  · intro pos h
    refine ⟨render_find_occurrence token s pos h, ?_, ?_, ?_⟩
    · intro he
      simp [render_span, h, he]
    · intro hres
      by_cases he : ending ≠ []
      · simp [render_span, h, he, hres]
      · simp [render_span, h, he]
    · intro off he hres
      exact ⟨by simp [render_span, h, he, hres],
        render_end_search_occurrence token ending _ off hres⟩

/-- Counterexample to C8 as stated: token `"#"`, ending token `" "`
(a space), template `"#a b"`.  The first unescaped ending token *is* a
space, so it does not occur strictly before any unescaped plain space,
and the claim then requires the span to cover exactly the start token
(length 1); but the code checks the ending token before the space rule
and extends the span through it (length 3). -/
theorem C8_counterexample :
    render_span ['#'] [' '] ['#', 'a', ' ', 'b'] = some (0, 3) ∧
    (some ((0 : Nat), (3 : Nat)) : Option (Nat × Nat)) ≠ some (0, 1) := by
  refine ⟨?_, by decide⟩
  simp [render_span, render_find, render_end_search, List.isPrefixOf]

/-- Witness for C8: token `"#"`, ending `"!"`, template `"a#b!c"`: the
span starts at the occurrence of `#` (position 1) and extends through
the `!` (length 3). -/
theorem C8_witness :
    render_find ['#'] ['a', '#', 'b', '!', 'c'] = some 1 ∧
    render_span ['#'] ['!'] ['a', '#', 'b', '!', 'c'] = some (1, 3) ∧
    (∀ pos, render_find ['#'] ['a', '#', 'b', '!', 'c'] = some pos →
      (['#'] : List Char).isPrefixOf (['a', '#', 'b', '!', 'c'].drop pos) ∧
      ((['!'] : List Char) = [] →
        render_span ['#'] ['!'] ['a', '#', 'b', '!', 'c']
          = some (pos, (['#'] : List Char).length)) ∧
      (render_end_search ['#'] ['!']
          (['a', '#', 'b', '!', 'c'].drop (pos + (['#'] : List Char).length))
            = none →
        render_span ['#'] ['!'] ['a', '#', 'b', '!', 'c']
          = some (pos, (['#'] : List Char).length)) ∧
      (∀ off, (['!'] : List Char) ≠ [] →
        render_end_search ['#'] ['!']
            (['a', '#', 'b', '!', 'c'].drop (pos + (['#'] : List Char).length))
              = some off →
        render_span ['#'] ['!'] ['a', '#', 'b', '!', 'c']
            = some (pos, (['#'] : List Char).length + off) ∧
        ∃ A, ['a', '#', 'b', '!', 'c'].drop (pos + (['#'] : List Char).length)
            = A ++ ['!'] ++
              ((['a', '#', 'b', '!', 'c'].drop
                (pos + (['#'] : List Char).length)).drop off) ∧
          off = A.length + (['!'] : List Char).length)) := by
  refine ⟨?_, ?_,
    (C8_render_span ['#'] ['!'] ['a', '#', 'b', '!', 'c']).2⟩
  · simp [render_find, List.isPrefixOf]
  · simp [render_span, render_find, render_end_search, List.isPrefixOf]

/-! ### UTF-8 encoding facts -/

theorem char_toNat_lt (c : Char) : c.toNat < 1114112 := by
  rcases c.valid with h | ⟨h1, h2⟩
  · exact Nat.lt_trans h (by norm_num)
  · exact h2

theorem char_eq_of_toNat (c d : Char) (h : c.toNat = d.toNat) : c = d :=
  Char.eq_of_val_eq (UInt32.ext h)

theorem utf8EncodeChar_bs : utf8EncodeChar '\\' = [0x5C] := rfl

theorem utf8EncodeChar_exists_cons (c : Char) :
    ∃ b bs, utf8EncodeChar c = b :: bs := by
  unfold utf8EncodeChar
  dsimp only
  split_ifs <;> exact ⟨_, _, rfl⟩

theorem utf8Len_encodeChar (c : Char) (b : Nat) (bs : List Nat)
    (h : utf8EncodeChar c = b :: bs) :
    utf8Len b = bs.length + 1 ∧ (b = 0x5C ↔ c = '\\') := by
  have hval := char_toNat_lt c
  have hbsn : ('\\' : Char).toNat = 92 := rfl
  unfold utf8EncodeChar at h
  dsimp only at h
  split_ifs at h with h1 h2 h3
  · obtain ⟨hb, hbs2⟩ := (List.cons.injEq _ _ _ _).mp h.symm
    subst hb
    subst hbs2
    exact ⟨by simp only [List.length_cons, List.length_nil]; unfold utf8Len; split_ifs <;> omega,
      fun hb92 => char_eq_of_toNat c '\\' (by omega),
      fun hc => by subst hc; rfl⟩
  · obtain ⟨hb, hbs2⟩ := (List.cons.injEq _ _ _ _).mp h.symm
    subst hb
    subst hbs2
    exact ⟨by simp only [List.length_cons, List.length_nil]; unfold utf8Len; split_ifs <;> omega,
      fun hb92 => absurd hb92 (by omega),
      fun hc => by subst hc; exact absurd (by decide) h1⟩
  · obtain ⟨hb, hbs2⟩ := (List.cons.injEq _ _ _ _).mp h.symm
    subst hb
    subst hbs2
    exact ⟨by simp only [List.length_cons, List.length_nil]; unfold utf8Len; split_ifs <;> omega,
      fun hb92 => absurd hb92 (by omega),
      fun hc => by subst hc; exact absurd (by decide) h1⟩
  · obtain ⟨hb, hbs2⟩ := (List.cons.injEq _ _ _ _).mp h.symm
    subst hb
    subst hbs2
    exact ⟨by simp only [List.length_cons, List.length_nil]; unfold utf8Len; split_ifs <;> omega,
      fun hb92 => absurd hb92 (by omega),
      fun hc => by subst hc; exact absurd (by decide) h1⟩

theorem utf8Encode_nil : utf8Encode [] = [] := rfl

theorem utf8Encode_cons (c : Char) (cs : List Char) :
    utf8Encode (c :: cs) = utf8EncodeChar c ++ utf8Encode cs := by
  simp [utf8Encode]

theorem utf8Encode_append (a b : List Char) :
    utf8Encode (a ++ b) = utf8Encode a ++ utf8Encode b := by
  simp [utf8Encode]

theorem utf8Encode_ne_nil (s : List Char) (h : s ≠ []) :
    utf8Encode s ≠ [] := by
  obtain ⟨c, cs, hc⟩ := List.exists_cons_of_ne_nil h
  obtain ⟨b, bs, hb⟩ := utf8EncodeChar_exists_cons c
  subst hc
  rw [utf8Encode_cons, hb]
  simp

theorem utf8EncodeChar_inj (c d : Char) (h : utf8EncodeChar c = utf8EncodeChar d) :
    c = d := by
  have hv1 := char_toNat_lt c
  have hv2 := char_toNat_lt d
  unfold utf8EncodeChar at h
  dsimp only at h
  apply char_eq_of_toNat
  split_ifs at h <;> simp at h <;> omega

theorem utf8Encode_prefix_forward (ts cs : List Char) (h : ts <+: cs) :
    utf8Encode ts <+: utf8Encode cs := by
  obtain ⟨w, hw⟩ := h
  exact ⟨utf8Encode w, by rw [← utf8Encode_append, hw]⟩

theorem utf8Encode_prefix_reflect :
    ∀ ts cs : List Char, utf8Encode ts <+: utf8Encode cs → ts <+: cs := by
  intro ts
  induction ts with
  | nil => intro cs _; exact List.nil_prefix
  | cons t ts' ih =>
    intro cs h
    cases cs with
    | nil =>
      exfalso
      rw [utf8Encode_nil, List.prefix_nil] at h
      exact utf8Encode_ne_nil (t :: ts') (by simp) h
    | cons c cs' =>
      obtain ⟨bt, Bt, hbt⟩ := utf8EncodeChar_exists_cons t
      obtain ⟨bc, Bc, hbc⟩ := utf8EncodeChar_exists_cons c
      obtain ⟨r, hr⟩ := h
      rw [utf8Encode_cons, utf8Encode_cons, hbt, hbc] at hr
      have hr2 : bt :: (Bt ++ utf8Encode ts' ++ r)
          = bc :: (Bc ++ utf8Encode cs') := by
        simpa using hr
      obtain ⟨hb, htail⟩ := (List.cons.injEq _ _ _ _).mp hr2
      have hlt := (utf8Len_encodeChar t bt Bt hbt).1
      have hlc := (utf8Len_encodeChar c bc Bc hbc).1
      have hlen : Bt.length = Bc.length := by rw [hb] at hlt; omega
      have happ : Bt ++ (utf8Encode ts' ++ r) = Bc ++ utf8Encode cs' := by
        simpa using htail
      obtain ⟨hBt, hrest⟩ := List.append_inj happ hlen
      have htc : t = c := by
        apply utf8EncodeChar_inj
        rw [hbt, hbc, hb, hBt]
      subst htc
      have hpre : ts' <+: cs' := ih cs' ⟨r, hrest⟩
      obtain ⟨w, hw⟩ := hpre
      exact ⟨w, by rw [List.cons_append, hw]⟩

theorem utf8Encode_isPrefixOf_eq (ts cs : List Char) :
    (utf8Encode ts).isPrefixOf (utf8Encode cs) = ts.isPrefixOf cs := by
  cases hA : (utf8Encode ts).isPrefixOf (utf8Encode cs) <;>
    cases hB : ts.isPrefixOf cs
  · rfl
  · exfalso
    have h1 := utf8Encode_prefix_forward ts cs ((isPrefixOf_eq_true_iff _ _).mp hB)
    have h2 := (isPrefixOf_eq_true_iff (utf8Encode ts) (utf8Encode cs)).mpr h1
    rw [hA] at h2
    cases h2
  · exfalso
    have h1 := utf8Encode_prefix_reflect ts cs ((isPrefixOf_eq_true_iff _ _).mp hA)
    have h2 := (isPrefixOf_eq_true_iff ts cs).mpr h1
    rw [hB] at h2
    cases h2
  · rfl

theorem utf8Encode_drop_tok (ts cs : List Char) (h : ts.isPrefixOf cs) :
    (utf8Encode cs).drop (utf8Encode ts).length
      = utf8Encode (cs.drop ts.length) := by
  obtain ⟨w, hw⟩ := (isPrefixOf_eq_true_iff _ _).mp h
  rw [← hw, utf8Encode_append, List.drop_left, List.drop_left]

theorem utf8Encode_drop_char (c : Char) (cs : List Char) (b : Nat)
    (bs : List Nat) (hc : utf8EncodeChar c = b :: bs) :
    (utf8Encode (c :: cs)).drop (utf8Len b) = utf8Encode cs := by
  have hl := (utf8Len_encodeChar c b bs hc).1
  rw [utf8Encode_cons, hc, hl]
  rw [show b :: bs ++ utf8Encode cs = (b :: bs) ++ utf8Encode cs from rfl]
  rw [show bs.length + 1 = (b :: bs).length from rfl]
  exact List.drop_left _ _

theorem utf8Encode_take_char (c : Char) (cs : List Char) (b : Nat)
    (bs : List Nat) (hc : utf8EncodeChar c = b :: bs) :
    (utf8Encode (c :: cs)).take (utf8Len b) = utf8EncodeChar c := by
  have hl := (utf8Len_encodeChar c b bs hc).1
  rw [utf8Encode_cons, hc, hl]
  rw [show b :: bs ++ utf8Encode cs = (b :: bs) ++ utf8Encode cs from rfl]
  rw [show bs.length + 1 = (b :: bs).length from rfl]
  rw [List.take_left]

/-! ### Case equations for the byte-level scans -/

theorem gpcB_nil (token : List Nat) (htok : token ≠ []) :
    gpc_bytes token htok [] = 0 := by
  rw [gpc_bytes.eq_def]

theorem gpcB_bs_nil (token : List Nat) (htok : token ≠ []) :
    gpc_bytes token htok [0x5C] = 0 := by
  rw [gpc_bytes.eq_def]; simp

theorem gpcB_bs_tok (token : List Nat) (htok : token ≠ []) (d : Nat)
    (rest2 : List Nat) (h : token.isPrefixOf (d :: rest2)) :
    gpc_bytes token htok (0x5C :: d :: rest2)
      = gpc_bytes token htok ((d :: rest2).drop token.length) := by
  rw [gpc_bytes.eq_def]; simp [h]

theorem gpcB_bs_ch (token : List Nat) (htok : token ≠ []) (d : Nat)
    (rest2 : List Nat) (h : ¬token.isPrefixOf (d :: rest2)) :
    gpc_bytes token htok (0x5C :: d :: rest2)
      = gpc_bytes token htok ((d :: rest2).drop (utf8Len d)) := by
  rw [gpc_bytes.eq_def]; simp [h]

theorem gpcB_tok (token : List Nat) (htok : token ≠ []) (b : Nat)
    (rest : List Nat) (hbs : b ≠ 0x5C) (h : token.isPrefixOf (b :: rest)) :
    gpc_bytes token htok (b :: rest)
      = 1 + gpc_bytes token htok ((b :: rest).drop token.length) := by
  rw [gpc_bytes.eq_def]; simp [hbs, h]

theorem gpcB_ch (token : List Nat) (htok : token ≠ []) (b : Nat)
    (rest : List Nat) (hbs : b ≠ 0x5C) (h : ¬token.isPrefixOf (b :: rest)) :
    gpc_bytes token htok (b :: rest)
      = gpc_bytes token htok ((b :: rest).drop (utf8Len b)) := by
  rw [gpc_bytes.eq_def]; simp [hbs, h]

theorem escB_nil (st et : List Nat) (hst : st ≠ []) :
    escape_bytes st et hst [] = [] := by
  rw [escape_bytes.eq_def]

theorem escB_bs (st et : List Nat) (hst : st ≠ []) (rest : List Nat) :
    escape_bytes st et hst (0x5C :: rest)
      = 0x5C :: 0x5C :: escape_bytes st et hst rest := by
  rw [escape_bytes.eq_def]; simp

theorem escB_tok (st et : List Nat) (hst : st ≠ []) (b : Nat)
    (rest : List Nat) (hbs : b ≠ 0x5C) (h : st.isPrefixOf (b :: rest)) :
    escape_bytes st et hst (b :: rest)
      = 0x5C :: (st ++ escape_bytes st et hst ((b :: rest).drop st.length)) := by
  rw [escape_bytes.eq_def]; simp [hbs, h]

theorem escB_et (st et : List Nat) (hst : st ≠ []) (b : Nat)
    (rest : List Nat) (hbs : b ≠ 0x5C) (hnst : ¬st.isPrefixOf (b :: rest))
    (h : et ≠ [] ∧ et.isPrefixOf (b :: rest)) :
    escape_bytes st et hst (b :: rest)
      = 0x5C :: (et ++ escape_bytes st et hst ((b :: rest).drop et.length)) := by
  rw [escape_bytes.eq_def]; simp [hbs, hnst, h.1, h.2]

theorem escB_ch (st et : List Nat) (hst : st ≠ []) (b : Nat)
    (rest : List Nat) (hbs : b ≠ 0x5C) (hnst : ¬st.isPrefixOf (b :: rest))
    (hnet : ¬(et ≠ [] ∧ et.isPrefixOf (b :: rest))) :
    escape_bytes st et hst (b :: rest)
      = (b :: rest).take (utf8Len b)
        ++ escape_bytes st et hst ((b :: rest).drop (utf8Len b)) := by
  rw [escape_bytes.eq_def]; simp [hbs, hnst]
  intro h1 h2
  exact absurd ⟨h1, (isPrefixOf_eq_true_iff _ _).mpr h2⟩ hnet

theorem clB_nil (st et : List Nat) : cleanup_bytes st et [] = [] := by
  rw [cleanup_bytes.eq_def]

theorem clB_bs_nil (st et : List Nat) : cleanup_bytes st et [0x5C] = [] := by
  rw [cleanup_bytes.eq_def]; simp

theorem clB_bs_tok (st et : List Nat) (d : Nat) (rest2 : List Nat)
    (h : st.isPrefixOf (d :: rest2)) :
    cleanup_bytes st et (0x5C :: d :: rest2)
      = st ++ cleanup_bytes st et ((d :: rest2).drop st.length) := by
  rw [cleanup_bytes.eq_def]; simp [h]

theorem clB_bs_et (st et : List Nat) (d : Nat) (rest2 : List Nat)
    (hnst : ¬st.isPrefixOf (d :: rest2))
    (h : et.isPrefixOf (d :: rest2) ∧ et ≠ []) :
    cleanup_bytes st et (0x5C :: d :: rest2)
      = et ++ cleanup_bytes st et ((d :: rest2).drop et.length) := by
  rw [cleanup_bytes.eq_def]; simp [hnst, h.1, h.2]

theorem clB_bs_bs (st et : List Nat) (rest2 : List Nat)
    (hnst : ¬st.isPrefixOf (0x5C :: rest2))
    (hnet : ¬(et.isPrefixOf (0x5C :: rest2) ∧ et ≠ [])) :
    cleanup_bytes st et (0x5C :: 0x5C :: rest2)
      = 0x5C :: cleanup_bytes st et rest2 := by
  rw [cleanup_bytes.eq_def]; simp [hnst]
  intro h1 h2
  exact absurd ⟨(isPrefixOf_eq_true_iff _ _).mpr h1, h2⟩ hnet

theorem clB_bs_ch (st et : List Nat) (d : Nat) (rest2 : List Nat)
    (hnst : ¬st.isPrefixOf (d :: rest2))
    (hnet : ¬(et.isPrefixOf (d :: rest2) ∧ et ≠ [])) (hd : d ≠ 0x5C) :
    cleanup_bytes st et (0x5C :: d :: rest2)
      = (d :: rest2).take (utf8Len d)
        ++ cleanup_bytes st et ((d :: rest2).drop (utf8Len d)) := by
  rw [cleanup_bytes.eq_def]; simp [hnst, hd]
  intro h1 h2
  exact absurd ⟨(isPrefixOf_eq_true_iff _ _).mpr h1, h2⟩ hnet

theorem clB_ch (st et : List Nat) (b : Nat) (rest : List Nat)
    (hbs : b ≠ 0x5C) :
    cleanup_bytes st et (b :: rest)
      = (b :: rest).take (utf8Len b)
        ++ cleanup_bytes st et ((b :: rest).drop (utf8Len b)) := by
  rw [cleanup_bytes.eq_def]; simp [hbs]

theorem feB_nil (st et : List Nat) : find_end_bytes st et [] = none := by
  rw [find_end_bytes.eq_def]

theorem feB_bs_nil (st et : List Nat) : find_end_bytes st et [0x5C] = none := by
  rw [find_end_bytes.eq_def]; simp

theorem feB_bs (st et : List Nat) (d : Nat) (rest2 : List Nat) :
    find_end_bytes st et (0x5C :: d :: rest2)
      = (find_end_bytes st et ((d :: rest2).drop (utf8Len d))).map
          (fun p => p + (1 + utf8Len d)) := by
  rw [find_end_bytes.eq_def]; simp

theorem feB_et (st et : List Nat) (b : Nat) (rest : List Nat)
    (hbs : b ≠ 0x5C) (h : et ≠ [] ∧ et.isPrefixOf (b :: rest)) :
    find_end_bytes st et (b :: rest) = some 0 := by
  rw [find_end_bytes.eq_def]; simp [hbs, h.1, h.2]

theorem feB_tok (st et : List Nat) (b : Nat) (rest : List Nat)
    (hbs : b ≠ 0x5C) (hnet : ¬(et ≠ [] ∧ et.isPrefixOf (b :: rest)))
    (h : st.isPrefixOf (b :: rest)) :
    find_end_bytes st et (b :: rest) = none := by
  rw [find_end_bytes.eq_def]; simp [hbs, h]
  intro h1 h2
  exact absurd ⟨h1, (isPrefixOf_eq_true_iff _ _).mpr h2⟩ hnet

theorem feB_ch (st et : List Nat) (b : Nat) (rest : List Nat)
    (hbs : b ≠ 0x5C) (hnet : ¬(et ≠ [] ∧ et.isPrefixOf (b :: rest)))
    (hnst : ¬st.isPrefixOf (b :: rest)) :
    find_end_bytes st et (b :: rest)
      = (find_end_bytes st et ((b :: rest).drop (utf8Len b))).map
          (fun p => p + utf8Len b) := by
  rw [find_end_bytes.eq_def]; simp [hbs, hnst]
  intro h1 h2
  exact absurd ⟨h1, (isPrefixOf_eq_true_iff _ _).mpr h2⟩ hnet

theorem raB_nil (st et v : List Nat) (hst : st ≠ []) (bfl : Bool) :
    replace_aux_bytes st et v hst bfl [] = [] := by
  rw [replace_aux_bytes.eq_def]

theorem raB_bs_nil (st et v : List Nat) (hst : st ≠ []) (bfl : Bool) :
    replace_aux_bytes st et v hst bfl [0x5C] = [0x5C] := by
  rw [replace_aux_bytes.eq_def]; simp

theorem raB_bs_tok (st et v : List Nat) (hst : st ≠ []) (bfl : Bool)
    (d : Nat) (rest2 : List Nat) (h : st.isPrefixOf (d :: rest2)) :
    replace_aux_bytes st et v hst bfl (0x5C :: d :: rest2)
      = 0x5C :: (st ++ replace_aux_bytes st et v hst bfl
          ((d :: rest2).drop st.length)) := by
  rw [replace_aux_bytes.eq_def]; simp [h]

theorem raB_bs_et (st et v : List Nat) (hst : st ≠ []) (bfl : Bool)
    (d : Nat) (rest2 : List Nat) (hnst : ¬st.isPrefixOf (d :: rest2))
    (h : et.isPrefixOf (d :: rest2) ∧ et ≠ []) :
    replace_aux_bytes st et v hst bfl (0x5C :: d :: rest2)
      = 0x5C :: (et ++ replace_aux_bytes st et v hst bfl
          ((d :: rest2).drop et.length)) := by
  rw [replace_aux_bytes.eq_def]; simp [hnst, h.1, h.2]

theorem raB_bs_ch (st et v : List Nat) (hst : st ≠ []) (bfl : Bool)
    (d : Nat) (rest2 : List Nat) (hnst : ¬st.isPrefixOf (d :: rest2))
    (hnet : ¬(et.isPrefixOf (d :: rest2) ∧ et ≠ [])) :
    replace_aux_bytes st et v hst bfl (0x5C :: d :: rest2)
      = 0x5C :: ((d :: rest2).take (utf8Len d)
          ++ replace_aux_bytes st et v hst bfl
            ((d :: rest2).drop (utf8Len d))) := by
  rw [replace_aux_bytes.eq_def]; simp [hnst]
  intro h1 h2
  exact absurd ⟨(isPrefixOf_eq_true_iff _ _).mpr h1, h2⟩ hnet

theorem raB_occ_some (st et v : List Nat) (hst : st ≠ []) (b : Nat)
    (rest : List Nat) (p : Nat) (hbs : b ≠ 0x5C)
    (hpre : st.isPrefixOf (b :: rest))
    (hfe : find_end_bytes st et ((b :: rest).drop st.length) = some p) :
    replace_aux_bytes st et v hst false (b :: rest)
      = v ++ replace_aux_bytes st et v hst true
          (((b :: rest).drop st.length).drop (p + et.length)) := by
  rw [replace_aux_bytes.eq_def]; simp [hbs, hpre, hfe]

theorem raB_occ_none (st et v : List Nat) (hst : st ≠ []) (b : Nat)
    (rest : List Nat) (hbs : b ≠ 0x5C) (hpre : st.isPrefixOf (b :: rest))
    (hfe : find_end_bytes st et ((b :: rest).drop st.length) = none) :
    replace_aux_bytes st et v hst false (b :: rest)
      = v ++ replace_aux_bytes st et v hst true ((b :: rest).drop st.length) := by
  rw [replace_aux_bytes.eq_def]; simp [hbs, hpre, hfe]

theorem raB_false_ch (st et v : List Nat) (hst : st ≠ []) (b : Nat)
    (rest : List Nat) (hbs : b ≠ 0x5C) (hnpre : ¬st.isPrefixOf (b :: rest)) :
    replace_aux_bytes st et v hst false (b :: rest)
      = (b :: rest).take (utf8Len b)
        ++ replace_aux_bytes st et v hst false ((b :: rest).drop (utf8Len b)) := by
  rw [replace_aux_bytes.eq_def]; simp [hbs, hnpre]

theorem raB_true_cons (st et v : List Nat) (hst : st ≠ []) (b : Nat)
    (rest : List Nat) (hbs : b ≠ 0x5C) :
    replace_aux_bytes st et v hst true (b :: rest)
      = (b :: rest).take (utf8Len b)
        ++ replace_aux_bytes st et v hst true ((b :: rest).drop (utf8Len b)) := by
  rw [replace_aux_bytes.eq_def]; simp [hbs]

/-! ### Byte/character correspondence -/

theorem utf8Encode_cons_head (c : Char) (cs : List Char) (b : Nat)
    (bs : List Nat) (hc : utf8EncodeChar c = b :: bs) :
    utf8Encode (c :: cs) = b :: (bs ++ utf8Encode cs) := by
  rw [utf8Encode_cons, hc]
  rfl

theorem utf8Encode_bs_cons (cs : List Char) :
    utf8Encode ('\\' :: cs) = 0x5C :: utf8Encode cs := by
  rw [utf8Encode_cons, utf8EncodeChar_bs]
  rfl

theorem head_ne_bs (c : Char) (b : Nat) (bs : List Nat)
    (hc : utf8EncodeChar c = b :: bs) (hbs : c ≠ '\\') : b ≠ 0x5C := by
  intro hb
  exact hbs (((utf8Len_encodeChar c b bs hc).2).mp hb)

theorem gpc_bytes_eq (token : List Char) (htok : token ≠ [])
    (htokB : utf8Encode token ≠ []) :
    ∀ s, gpc_bytes (utf8Encode token) htokB (utf8Encode s)
      = get_parameter_count token htok s := by
  intro s
  induction s using get_parameter_count.induct token htok with
  | case1 => rw [utf8Encode_nil, gpcB_nil, gpc_nil]
  | case2 =>
    have henc : utf8Encode ['\\'] = [0x5C] := rfl
    rw [henc, gpcB_bs_nil, gpc_bs_nil]
  | case3 d rest2 hp ih =>
    obtain ⟨bd, Bd, hbd⟩ := utf8EncodeChar_exists_cons d
    have henc2 := utf8Encode_cons_head d rest2 bd Bd hbd
    have hpB : (utf8Encode token).isPrefixOf (bd :: (Bd ++ utf8Encode rest2)) := by
      rw [← henc2, utf8Encode_isPrefixOf_eq]
      exact hp
    rw [utf8Encode_bs_cons, henc2,
      gpcB_bs_tok (utf8Encode token) htokB bd (Bd ++ utf8Encode rest2) hpB,
      ← henc2, utf8Encode_drop_tok token (d :: rest2) hp,
      gpc_bs_tok token htok d rest2 hp]
    exact ih
  | case4 d rest2 hnp ih =>
    obtain ⟨bd, Bd, hbd⟩ := utf8EncodeChar_exists_cons d
    have henc2 := utf8Encode_cons_head d rest2 bd Bd hbd
    have hnpB : ¬(utf8Encode token).isPrefixOf (bd :: (Bd ++ utf8Encode rest2)) := by
      rw [← henc2, utf8Encode_isPrefixOf_eq]
      exact hnp
    rw [utf8Encode_bs_cons, henc2,
      gpcB_bs_ch (utf8Encode token) htokB bd (Bd ++ utf8Encode rest2) hnpB,
      ← henc2, utf8Encode_drop_char d rest2 bd Bd hbd,
      gpc_bs_ch token htok d rest2 hnp]
    exact ih
  | case5 c rest hbs hp ih =>
    obtain ⟨bc, Bc, hbc⟩ := utf8EncodeChar_exists_cons c
    have henc2 := utf8Encode_cons_head c rest bc Bc hbc
    have hbB := head_ne_bs c bc Bc hbc hbs
    have hpB : (utf8Encode token).isPrefixOf (bc :: (Bc ++ utf8Encode rest)) := by
      rw [← henc2, utf8Encode_isPrefixOf_eq]
      exact hp
    rw [henc2,
      gpcB_tok (utf8Encode token) htokB bc (Bc ++ utf8Encode rest) hbB hpB,
      ← henc2, utf8Encode_drop_tok token (c :: rest) hp,
      gpc_tok token htok c rest hbs hp]
    rw [ih]
  | case6 c rest hbs hnp ih =>
    obtain ⟨bc, Bc, hbc⟩ := utf8EncodeChar_exists_cons c
    have henc2 := utf8Encode_cons_head c rest bc Bc hbc
    have hbB := head_ne_bs c bc Bc hbc hbs
    have hnpB : ¬(utf8Encode token).isPrefixOf (bc :: (Bc ++ utf8Encode rest)) := by
      rw [← henc2, utf8Encode_isPrefixOf_eq]
      exact hnp
    rw [henc2,
      gpcB_ch (utf8Encode token) htokB bc (Bc ++ utf8Encode rest) hbB hnpB,
      ← henc2, utf8Encode_drop_char c rest bc Bc hbc,
      gpc_ch token htok c rest hbs hnp]
    exact ih

theorem enc_et_cond (et : List Char) (X : List Char)
    (h : et ≠ [] ∧ et.isPrefixOf X) :
    utf8Encode et ≠ [] ∧ (utf8Encode et).isPrefixOf (utf8Encode X) := by
  refine ⟨utf8Encode_ne_nil et h.1, ?_⟩
  rw [utf8Encode_isPrefixOf_eq]
  exact h.2

theorem enc_et_cond_neg (et : List Char) (X : List Char)
    (h : ¬(et ≠ [] ∧ et.isPrefixOf X)) :
    ¬(utf8Encode et ≠ [] ∧ (utf8Encode et).isPrefixOf (utf8Encode X)) := by
  intro ⟨h1, h2⟩
  rw [utf8Encode_isPrefixOf_eq] at h2
  exact h ⟨fun hnil => h1 (by rw [hnil]; rfl), h2⟩

theorem enc_et_cond2 (et : List Char) (X : List Char)
    (h : et.isPrefixOf X ∧ et ≠ []) :
    (utf8Encode et).isPrefixOf (utf8Encode X) ∧ utf8Encode et ≠ [] := by
  refine ⟨?_, utf8Encode_ne_nil et h.2⟩
  rw [utf8Encode_isPrefixOf_eq]
  exact h.1

theorem enc_et_cond2_neg (et : List Char) (X : List Char)
    (h : ¬(et.isPrefixOf X ∧ et ≠ [])) :
    ¬((utf8Encode et).isPrefixOf (utf8Encode X) ∧ utf8Encode et ≠ []) := by
  intro ⟨h1, h2⟩
  rw [utf8Encode_isPrefixOf_eq] at h1
  exact h ⟨h1, fun hnil => h2 (by rw [hnil]; rfl)⟩

theorem escape_bytes_eq (st et : List Char) (hst : st ≠ [])
    (hstB : utf8Encode st ≠ []) :
    ∀ s, escape_bytes (utf8Encode st) (utf8Encode et) hstB (utf8Encode s)
      = utf8Encode (escape_input st et hst s) := by
  intro s
  induction s using escape_input.induct st et hst with
  | case1 => rw [utf8Encode_nil, escB_nil, escape_nil, utf8Encode_nil]
  | case2 rest ih =>
    rw [utf8Encode_bs_cons, escB_bs, escape_bs, utf8Encode_bs_cons,
      utf8Encode_bs_cons, ih]
  | case3 c rest hbs hp ih =>
    obtain ⟨bc, Bc, hbc⟩ := utf8EncodeChar_exists_cons c
    have henc2 := utf8Encode_cons_head c rest bc Bc hbc
    have hbB := head_ne_bs c bc Bc hbc hbs
    have hpB : (utf8Encode st).isPrefixOf (bc :: (Bc ++ utf8Encode rest)) := by
      rw [← henc2, utf8Encode_isPrefixOf_eq]
      exact hp
    rw [henc2,
      escB_tok (utf8Encode st) (utf8Encode et) hstB bc (Bc ++ utf8Encode rest)
        hbB hpB,
      ← henc2, utf8Encode_drop_tok st (c :: rest) hp, ih,
      escape_tok st et hst c rest hbs hp, utf8Encode_bs_cons,
      utf8Encode_append]
  | case4 c rest hbs hnst hetc ih =>
    obtain ⟨bc, Bc, hbc⟩ := utf8EncodeChar_exists_cons c
    have henc2 := utf8Encode_cons_head c rest bc Bc hbc
    have hbB := head_ne_bs c bc Bc hbc hbs
    have hnstB : ¬(utf8Encode st).isPrefixOf (bc :: (Bc ++ utf8Encode rest)) := by
      rw [← henc2, utf8Encode_isPrefixOf_eq]
      exact hnst
    have hetB := enc_et_cond et (c :: rest) hetc
    rw [henc2,
      escB_et (utf8Encode st) (utf8Encode et) hstB bc (Bc ++ utf8Encode rest)
        hbB hnstB (henc2 ▸ hetB),
      ← henc2, utf8Encode_drop_tok et (c :: rest) hetc.2, ih,
      escape_et st et hst c rest hbs hnst hetc, utf8Encode_bs_cons,
      utf8Encode_append]
  | case5 c rest hbs hnst hnet ih =>
    obtain ⟨bc, Bc, hbc⟩ := utf8EncodeChar_exists_cons c
    have henc2 := utf8Encode_cons_head c rest bc Bc hbc
    have hbB := head_ne_bs c bc Bc hbc hbs
    have hnstB : ¬(utf8Encode st).isPrefixOf (bc :: (Bc ++ utf8Encode rest)) := by
      rw [← henc2, utf8Encode_isPrefixOf_eq]
      exact hnst
    have hnetB := enc_et_cond_neg et (c :: rest) hnet
    rw [henc2,
      escB_ch (utf8Encode st) (utf8Encode et) hstB bc (Bc ++ utf8Encode rest)
        hbB hnstB (henc2 ▸ hnetB),
      ← henc2, utf8Encode_drop_char c rest bc Bc hbc,
      utf8Encode_take_char c rest bc Bc hbc, ih,
      escape_ch st et hst c rest hbs hnst hnet, utf8Encode_cons]

theorem cleanup_bytes_eq (st et : List Char) :
    ∀ s, cleanup_bytes (utf8Encode st) (utf8Encode et) (utf8Encode s)
      = utf8Encode (cleanup_escapes st et s) := by
  intro s
  induction s using cleanup_escapes.induct st et with
  | case1 => rw [utf8Encode_nil, clB_nil, cleanup_nil, utf8Encode_nil]
  | case2 =>
    have henc : utf8Encode ['\\'] = [0x5C] := rfl
    rw [henc, clB_bs_nil, cleanup_bs_nil, utf8Encode_nil]
  | case3 d rest2 hp ih =>
    obtain ⟨bd, Bd, hbd⟩ := utf8EncodeChar_exists_cons d
    have henc2 := utf8Encode_cons_head d rest2 bd Bd hbd
    have hpB : (utf8Encode st).isPrefixOf (bd :: (Bd ++ utf8Encode rest2)) := by
      rw [← henc2, utf8Encode_isPrefixOf_eq]
      exact hp
    rw [utf8Encode_bs_cons, henc2,
      clB_bs_tok (utf8Encode st) (utf8Encode et) bd (Bd ++ utf8Encode rest2) hpB,
      ← henc2, utf8Encode_drop_tok st (d :: rest2) hp, ih,
      cleanup_bs_tok st et d rest2 hp, utf8Encode_append]
  | case4 d rest2 hnst hetc ih =>
    obtain ⟨bd, Bd, hbd⟩ := utf8EncodeChar_exists_cons d
    have henc2 := utf8Encode_cons_head d rest2 bd Bd hbd
    have hnstB : ¬(utf8Encode st).isPrefixOf (bd :: (Bd ++ utf8Encode rest2)) := by
      rw [← henc2, utf8Encode_isPrefixOf_eq]
      exact hnst
    have hetB := enc_et_cond2 et (d :: rest2) hetc
    rw [utf8Encode_bs_cons, henc2,
      clB_bs_et (utf8Encode st) (utf8Encode et) bd (Bd ++ utf8Encode rest2)
        hnstB (henc2 ▸ hetB),
      ← henc2, utf8Encode_drop_tok et (d :: rest2) hetc.1, ih,
      cleanup_bs_et st et d rest2 hnst hetc, utf8Encode_append]
  | case5 rest2 hnst hnet ih =>
    have hnstB : ¬(utf8Encode st).isPrefixOf (0x5C :: utf8Encode rest2) := by
      rw [← utf8Encode_bs_cons, utf8Encode_isPrefixOf_eq]
      exact hnst
    have hnetB := enc_et_cond2_neg et ('\\' :: rest2) hnet
    rw [utf8Encode_bs_cons, utf8Encode_bs_cons,
      clB_bs_bs (utf8Encode st) (utf8Encode et) (utf8Encode rest2) hnstB
        ((utf8Encode_bs_cons rest2) ▸ hnetB),
      ih, cleanup_bs_bs st et rest2 hnst hnet, utf8Encode_bs_cons]
  | case6 d rest2 hnst hnet hd ih =>
    obtain ⟨bd, Bd, hbd⟩ := utf8EncodeChar_exists_cons d
    have henc2 := utf8Encode_cons_head d rest2 bd Bd hbd
    have hbB := head_ne_bs d bd Bd hbd hd
    have hnstB : ¬(utf8Encode st).isPrefixOf (bd :: (Bd ++ utf8Encode rest2)) := by
      rw [← henc2, utf8Encode_isPrefixOf_eq]
      exact hnst
    have hnetB := enc_et_cond2_neg et (d :: rest2) hnet
    rw [utf8Encode_bs_cons, henc2,
      clB_bs_ch (utf8Encode st) (utf8Encode et) bd (Bd ++ utf8Encode rest2)
        hnstB (henc2 ▸ hnetB) hbB,
      ← henc2, utf8Encode_drop_char d rest2 bd Bd hbd,
      utf8Encode_take_char d rest2 bd Bd hbd, ih,
      cleanup_bs_ch st et d rest2 hnst hnet hd, utf8Encode_cons]
  | case7 c rest hbs ih =>
    obtain ⟨bc, Bc, hbc⟩ := utf8EncodeChar_exists_cons c
    have henc2 := utf8Encode_cons_head c rest bc Bc hbc
    have hbB := head_ne_bs c bc Bc hbc hbs
    rw [henc2,
      clB_ch (utf8Encode st) (utf8Encode et) bc (Bc ++ utf8Encode rest) hbB,
      ← henc2, utf8Encode_drop_char c rest bc Bc hbc,
      utf8Encode_take_char c rest bc Bc hbc, ih,
      cleanup_ch st et c rest hbs, utf8Encode_cons]

theorem drop_enc_unit (c : Char) (cs : List Char) (b : Nat) (bs : List Nat)
    (hc : utf8EncodeChar c = b :: bs) (n : Nat) :
    (utf8Encode (c :: cs)).drop (n + utf8Len b) = (utf8Encode cs).drop n := by
  have h1 : (utf8Encode (c :: cs)).drop (utf8Len b) = utf8Encode cs :=
    utf8Encode_drop_char c cs b bs hc
  calc (utf8Encode (c :: cs)).drop (n + utf8Len b)
      = ((utf8Encode (c :: cs)).drop (utf8Len b)).drop n := by
        rw [List.drop_drop]
        congr 1
        omega
    _ = (utf8Encode cs).drop n := by rw [h1]

theorem drop_enc_bs_unit (d : Char) (cs : List Char) (bd : Nat)
    (Bd : List Nat) (hbd : utf8EncodeChar d = bd :: Bd) (n : Nat) :
    (utf8Encode ('\\' :: d :: cs)).drop (n + (1 + utf8Len bd))
      = (utf8Encode cs).drop n := by
  have he : n + (1 + utf8Len bd) = (n + utf8Len bd) + 1 := by omega
  rw [he, utf8Encode_bs_cons, List.drop_succ_cons, drop_enc_unit d cs bd Bd hbd n]

theorem find_end_bytes_eq (st et : List Char) :
    ∀ r, (find_end_bytes (utf8Encode st) (utf8Encode et) (utf8Encode r) = none
            ↔ find_end st et r = none) ∧
         (∀ p, find_end_bytes (utf8Encode st) (utf8Encode et) (utf8Encode r)
              = some p →
            ∃ q, find_end st et r = some q ∧
              (utf8Encode r).drop (p + (utf8Encode et).length)
                = utf8Encode (r.drop (q + et.length))) := by
  intro r
  induction r using find_end.induct st et with
  | case1 =>
    rw [utf8Encode_nil, feB_nil, find_end_nil]
    exact ⟨Iff.rfl, fun p h => by cases h⟩
  | case2 =>
    have henc : utf8Encode ['\\'] = [0x5C] := rfl
    rw [henc, feB_bs_nil, find_end_bs_nil]
    exact ⟨Iff.rfl, fun p h => by cases h⟩
  | case3 d rest2 ih =>
    obtain ⟨bd, Bd, hbd⟩ := utf8EncodeChar_exists_cons d
    have henc2 := utf8Encode_cons_head d rest2 bd Bd hbd
    have hdropB : ((bd :: (Bd ++ utf8Encode rest2)).drop (utf8Len bd))
        = utf8Encode rest2 := by
      rw [← henc2]
      exact utf8Encode_drop_char d rest2 bd Bd hbd
    rw [utf8Encode_bs_cons, henc2, feB_bs, hdropB, find_end_bs]
    constructor
    · constructor
      · intro h
        rcases hrec : find_end_bytes (utf8Encode st) (utf8Encode et)
            (utf8Encode rest2) with _ | p
        · rw [(ih.1).mp hrec]; rfl
        · rw [hrec] at h; cases h
      · intro h
        rcases hrec : find_end st et rest2 with _ | q
        · have hB := (ih.1).mpr hrec
          rw [hB]; rfl
        · rw [hrec] at h; cases h
    · intro p h
      rcases hrec : find_end_bytes (utf8Encode st) (utf8Encode et)
          (utf8Encode rest2) with _ | p'
      · rw [hrec] at h; cases h
      · rw [hrec] at h
        have hp : p = p' + (1 + utf8Len bd) :=
          ((Option.some.injEq _ _).mp h).symm
        obtain ⟨q', hq', hdrop⟩ := ih.2 p' hrec
        refine ⟨q' + 2, by rw [hq']; rfl, ?_⟩
        have h1 : p + (utf8Encode et).length
            = (p' + (utf8Encode et).length) + (1 + utf8Len bd) := by omega
        have h2 : q' + 2 + et.length = (q' + et.length) + 1 + 1 := by omega
        rw [h1, ← henc2, ← utf8Encode_bs_cons,
          drop_enc_bs_unit d rest2 bd Bd hbd (p' + (utf8Encode et).length),
          hdrop, h2, List.drop_succ_cons, List.drop_succ_cons]
  | case4 c rest hbs hetc =>
    obtain ⟨bc, Bc, hbc⟩ := utf8EncodeChar_exists_cons c
    have henc2 := utf8Encode_cons_head c rest bc Bc hbc
    have hbB := head_ne_bs c bc Bc hbc hbs
    have hetB := enc_et_cond et (c :: rest) hetc
    rw [henc2,
      feB_et (utf8Encode st) (utf8Encode et) bc (Bc ++ utf8Encode rest) hbB
        (henc2 ▸ hetB),
      find_end_et st et c rest hbs hetc]
    refine ⟨Iff.rfl, ?_⟩
    intro p h
    have hp : p = 0 := ((Option.some.injEq _ _).mp h).symm
    subst hp
    refine ⟨0, rfl, ?_⟩
    rw [← henc2]
    simp only [Nat.zero_add]
    exact utf8Encode_drop_tok et (c :: rest) hetc.2
  | case5 c rest hbs hnet hst2 =>
    obtain ⟨bc, Bc, hbc⟩ := utf8EncodeChar_exists_cons c
    have henc2 := utf8Encode_cons_head c rest bc Bc hbc
    have hbB := head_ne_bs c bc Bc hbc hbs
    have hnetB := enc_et_cond_neg et (c :: rest) hnet
    have hstB : (utf8Encode st).isPrefixOf (bc :: (Bc ++ utf8Encode rest)) := by
      rw [← henc2, utf8Encode_isPrefixOf_eq]
      exact hst2
    rw [henc2,
      feB_tok (utf8Encode st) (utf8Encode et) bc (Bc ++ utf8Encode rest) hbB
        (henc2 ▸ hnetB) hstB,
      find_end_tok st et c rest hbs hnet hst2]
    exact ⟨Iff.rfl, fun p h => by cases h⟩
  | case6 c rest hbs hnet hnst ih =>
    obtain ⟨bc, Bc, hbc⟩ := utf8EncodeChar_exists_cons c
    have henc2 := utf8Encode_cons_head c rest bc Bc hbc
    have hbB := head_ne_bs c bc Bc hbc hbs
    have hnetB := enc_et_cond_neg et (c :: rest) hnet
    have hnstB : ¬(utf8Encode st).isPrefixOf (bc :: (Bc ++ utf8Encode rest)) := by
      rw [← henc2, utf8Encode_isPrefixOf_eq]
      exact hnst
    have hdropB : ((bc :: (Bc ++ utf8Encode rest)).drop (utf8Len bc))
        = utf8Encode rest := by
      rw [← henc2]
      exact utf8Encode_drop_char c rest bc Bc hbc
    rw [henc2,
      feB_ch (utf8Encode st) (utf8Encode et) bc (Bc ++ utf8Encode rest) hbB
        (henc2 ▸ hnetB) hnstB,
      hdropB, find_end_ch st et c rest hbs hnet hnst]
    constructor
    · constructor
      · intro h
        rcases hrec : find_end_bytes (utf8Encode st) (utf8Encode et)
            (utf8Encode rest) with _ | p
        · rw [(ih.1).mp hrec]; rfl
        · rw [hrec] at h; cases h
      · intro h
        rcases hrec : find_end st et rest with _ | q
        · rw [(ih.1).mpr hrec]; rfl
        · rw [hrec] at h; cases h
    · intro p h
      rcases hrec : find_end_bytes (utf8Encode st) (utf8Encode et)
          (utf8Encode rest) with _ | p'
      · rw [hrec] at h; cases h
      · rw [hrec] at h
        have hp : p = p' + utf8Len bc :=
          ((Option.some.injEq _ _).mp h).symm
        obtain ⟨q', hq', hdrop⟩ := ih.2 p' hrec
        refine ⟨q' + 1, by rw [hq']; rfl, ?_⟩
        have h1 : p + (utf8Encode et).length
            = (p' + (utf8Encode et).length) + utf8Len bc := by omega
        have h2 : q' + 1 + et.length = (q' + et.length) + 1 := by omega
        rw [h1, ← henc2,
          drop_enc_unit c rest bc Bc hbc (p' + (utf8Encode et).length),
          hdrop, h2, List.drop_succ_cons]

theorem replace_aux_bytes_eq (st et v : List Char) (hst : st ≠ [])
    (hstB : utf8Encode st ≠ []) :
    ∀ (b : Bool) (s : List Char),
      replace_aux_bytes (utf8Encode st) (utf8Encode et) (utf8Encode v) hstB b
          (utf8Encode s)
        = utf8Encode (replace_aux st et v hst b s) := by
  intro b s
  induction b, s using replace_aux.induct st et v hst with
  | case1 x =>
    rw [utf8Encode_nil, raB_nil, replace_aux_nil, utf8Encode_nil]
  | case2 replaced =>
    have henc : utf8Encode ['\\'] = [0x5C] := rfl
    rw [henc, raB_bs_nil, replace_aux_bs_nil, henc]
  | case3 replaced d rest2 hpre ih =>
    obtain ⟨bd, Bd, hbd⟩ := utf8EncodeChar_exists_cons d
    have henc2 := utf8Encode_cons_head d rest2 bd Bd hbd
    have hpB : (utf8Encode st).isPrefixOf (bd :: (Bd ++ utf8Encode rest2)) := by
      rw [← henc2, utf8Encode_isPrefixOf_eq]
      exact hpre
    rw [utf8Encode_bs_cons, henc2,
      raB_bs_tok (utf8Encode st) (utf8Encode et) (utf8Encode v) hstB replaced
        bd (Bd ++ utf8Encode rest2) hpB,
      ← henc2, utf8Encode_drop_tok st (d :: rest2) hpre, ih,
      replace_aux_bs_tok st et v hst replaced d rest2 hpre,
      utf8Encode_bs_cons, utf8Encode_append]
  | case4 replaced d rest2 hnst hetc ih =>
    obtain ⟨bd, Bd, hbd⟩ := utf8EncodeChar_exists_cons d
    have henc2 := utf8Encode_cons_head d rest2 bd Bd hbd
    have hnstB : ¬(utf8Encode st).isPrefixOf (bd :: (Bd ++ utf8Encode rest2)) := by
      rw [← henc2, utf8Encode_isPrefixOf_eq]
      exact hnst
    have hetB := enc_et_cond2 et (d :: rest2) hetc
    rw [utf8Encode_bs_cons, henc2,
      raB_bs_et (utf8Encode st) (utf8Encode et) (utf8Encode v) hstB replaced
        bd (Bd ++ utf8Encode rest2) hnstB (henc2 ▸ hetB),
      ← henc2, utf8Encode_drop_tok et (d :: rest2) hetc.1, ih,
      replace_aux_bs_et st et v hst replaced d rest2 hnst hetc,
      utf8Encode_bs_cons, utf8Encode_append]
  | case5 replaced d rest2 hnst hnet ih =>
    obtain ⟨bd, Bd, hbd⟩ := utf8EncodeChar_exists_cons d
    have henc2 := utf8Encode_cons_head d rest2 bd Bd hbd
    have hnstB : ¬(utf8Encode st).isPrefixOf (bd :: (Bd ++ utf8Encode rest2)) := by
      rw [← henc2, utf8Encode_isPrefixOf_eq]
      exact hnst
    have hnetB := enc_et_cond2_neg et (d :: rest2) hnet
    rw [utf8Encode_bs_cons, henc2,
      raB_bs_ch (utf8Encode st) (utf8Encode et) (utf8Encode v) hstB replaced
        bd (Bd ++ utf8Encode rest2) hnstB (henc2 ▸ hnetB),
      ← henc2, utf8Encode_drop_char d rest2 bd Bd hbd,
      utf8Encode_take_char d rest2 bd Bd hbd, ih,
      replace_aux_bs_ch st et v hst replaced d rest2 hnst hnet,
      utf8Encode_bs_cons, utf8Encode_cons]
  | case6 replaced c rest hbs hcond p hfe ih =>
    obtain ⟨hb, hpre⟩ := hcond
    subst hb
    obtain ⟨bc, Bc, hbc⟩ := utf8EncodeChar_exists_cons c
    have henc2 := utf8Encode_cons_head c rest bc Bc hbc
    have hbB := head_ne_bs c bc Bc hbc hbs
    have hpB : (utf8Encode st).isPrefixOf (bc :: (Bc ++ utf8Encode rest)) := by
      rw [← henc2, utf8Encode_isPrefixOf_eq]
      exact hpre
    have hdropT : (utf8Encode (c :: rest)).drop (utf8Encode st).length
        = utf8Encode ((c :: rest).drop st.length) :=
      utf8Encode_drop_tok st (c :: rest) hpre
    have hfeB := find_end_bytes_eq st et ((c :: rest).drop st.length)
    rcases hB : find_end_bytes (utf8Encode st) (utf8Encode et)
        (utf8Encode ((c :: rest).drop st.length)) with _ | pB
    · exact absurd hfe (by rw [(hfeB.1).mp hB]; intro h; cases h)
    · obtain ⟨q, hq, halign⟩ := hfeB.2 pB hB
      rw [hfe] at hq
      have hqp : q = p := (Option.some.injEq _ _).mp hq.symm
      subst hqp
      have hfeB2 : find_end_bytes (utf8Encode st) (utf8Encode et)
          ((bc :: (Bc ++ utf8Encode rest)).drop (utf8Encode st).length)
          = some pB := by
        rw [← henc2, hdropT]
        exact hB
      rw [henc2,
        raB_occ_some (utf8Encode st) (utf8Encode et) (utf8Encode v) hstB
          bc (Bc ++ utf8Encode rest) pB hbB hpB hfeB2,
        ← henc2, hdropT, halign, ih,
        replace_aux_occ_some st et v hst c rest q hbs hpre hfe,
        utf8Encode_append]
  | case7 replaced c rest hbs hcond hfe ih =>
    obtain ⟨hb, hpre⟩ := hcond
    subst hb
    obtain ⟨bc, Bc, hbc⟩ := utf8EncodeChar_exists_cons c
    have henc2 := utf8Encode_cons_head c rest bc Bc hbc
    have hbB := head_ne_bs c bc Bc hbc hbs
    have hpB : (utf8Encode st).isPrefixOf (bc :: (Bc ++ utf8Encode rest)) := by
      rw [← henc2, utf8Encode_isPrefixOf_eq]
      exact hpre
    have hdropT : (utf8Encode (c :: rest)).drop (utf8Encode st).length
        = utf8Encode ((c :: rest).drop st.length) :=
      utf8Encode_drop_tok st (c :: rest) hpre
    have hfeB := find_end_bytes_eq st et ((c :: rest).drop st.length)
    have hB : find_end_bytes (utf8Encode st) (utf8Encode et)
        (utf8Encode ((c :: rest).drop st.length)) = none := (hfeB.1).mpr hfe
    have hfeB2 : find_end_bytes (utf8Encode st) (utf8Encode et)
        ((bc :: (Bc ++ utf8Encode rest)).drop (utf8Encode st).length)
        = none := by
      rw [← henc2, hdropT]
      exact hB
    rw [henc2,
      raB_occ_none (utf8Encode st) (utf8Encode et) (utf8Encode v) hstB
        bc (Bc ++ utf8Encode rest) hbB hpB hfeB2,
      ← henc2, hdropT, ih,
      replace_aux_occ_none st et v hst c rest hbs hpre hfe,
      utf8Encode_append]
  | case8 replaced c rest hbs hncond ih =>
    obtain ⟨bc, Bc, hbc⟩ := utf8EncodeChar_exists_cons c
    have henc2 := utf8Encode_cons_head c rest bc Bc hbc
    have hbB := head_ne_bs c bc Bc hbc hbs
    cases replaced with
    | true =>
      rw [henc2,
        raB_true_cons (utf8Encode st) (utf8Encode et) (utf8Encode v) hstB
          bc (Bc ++ utf8Encode rest) hbB,
        ← henc2, utf8Encode_drop_char c rest bc Bc hbc,
        utf8Encode_take_char c rest bc Bc hbc, ih,
        replace_aux_true_cons st et v hst c rest hbs, utf8Encode_cons]
    | false =>
      have hnpre : ¬st.isPrefixOf (c :: rest) := fun hp => hncond ⟨rfl, hp⟩
      have hnpB : ¬(utf8Encode st).isPrefixOf (bc :: (Bc ++ utf8Encode rest)) := by
        rw [← henc2, utf8Encode_isPrefixOf_eq]
        exact hnpre
      rw [henc2,
        raB_false_ch (utf8Encode st) (utf8Encode et) (utf8Encode v) hstB
          bc (Bc ++ utf8Encode rest) hbB hnpB,
        ← henc2, utf8Encode_drop_char c rest bc Bc hbc,
        utf8Encode_take_char c rest bc Bc hbc, ih,
        replace_aux_false_ch st et v hst c rest hbs hnpre, utf8Encode_cons]

theorem replace_bytes_eq (st et v : List Char) (hst : st ≠ [])
    (hstB : utf8Encode st ≠ []) (s : List Char) :
    replace_bytes (utf8Encode st) (utf8Encode et) (utf8Encode v) hstB
        (utf8Encode s)
      = utf8Encode (replace_parameter st et v hst s) :=
  replace_aux_bytes_eq st et v hst hstB false s

/-- C9: on every valid Unicode input — modelled as the UTF-8 encoding of a
sequence of scalar values — and every non-empty `start_token`, each engine
operation (`escape_input`, `cleanup_escapes`, `get_parameter_count`,
`replace_parameter`) read at the byte level, exactly as the Rust code
walks byte indices in `len_utf8` steps, is total (terminates, never
panics) and produces exactly the UTF-8 encoding of the character-level
result: every slice taken during the scan falls on a character boundary,
no multi-byte character is ever split, and the returned buffer is valid
Unicode text. -/
theorem C9_utf8_safety (st et v s : List Char) (hst : st ≠ [])
    (hstB : utf8Encode st ≠ []) :
    escape_bytes (utf8Encode st) (utf8Encode et) hstB (utf8Encode s)
        = utf8Encode (escape_input st et hst s)
      ∧ cleanup_bytes (utf8Encode st) (utf8Encode et) (utf8Encode s)
        = utf8Encode (cleanup_escapes st et s)
      ∧ gpc_bytes (utf8Encode st) hstB (utf8Encode s)
        = get_parameter_count st hst s
      ∧ replace_bytes (utf8Encode st) (utf8Encode et) (utf8Encode v) hstB
          (utf8Encode s)
        = utf8Encode (replace_parameter st et v hst s) :=
  ⟨escape_bytes_eq st et hst hstB s, cleanup_bytes_eq st et s,
   gpc_bytes_eq st hst hstB s, replace_bytes_eq st et v hst hstB s⟩

theorem C9_witness :
    (['#'] : List Char) ≠ [] ∧ utf8Encode ['#'] ≠ [] ∧
    (escape_bytes (utf8Encode ['#']) (utf8Encode ['!']) (by decide)
          (utf8Encode ['é', '#'])
        = utf8Encode (escape_input ['#'] ['!'] (by decide) ['é', '#'])
      ∧ cleanup_bytes (utf8Encode ['#']) (utf8Encode ['!'])
          (utf8Encode ['é', '#'])
        = utf8Encode (cleanup_escapes ['#'] ['!'] ['é', '#'])
      ∧ gpc_bytes (utf8Encode ['#']) (by decide) (utf8Encode ['é', '#'])
        = get_parameter_count ['#'] (by decide) ['é', '#']
      ∧ replace_bytes (utf8Encode ['#']) (utf8Encode ['!']) (utf8Encode ['v'])
          (by decide) (utf8Encode ['é', '#'])
        = utf8Encode (replace_parameter ['#'] ['!'] ['v'] (by decide)
            ['é', '#'])) :=
  ⟨by decide, by decide,
   C9_utf8_safety ['#'] ['!'] ['v'] ['é', '#'] (by decide) (by decide)⟩

end Hoard
